import Mathlib

/-!
Verification development for the gamedev-links extraction pipeline.

The Python sources are shallowly embedded over `Str := List Char`:
  - fetch_dates.py   : date-string normalization, URL date patterns, the
                       HTML metadata waterfall and the per-URL driver
                       (network fetch modelled as an `Option Str` oracle);
  - classify.py      : domain-based type classification and keyword tag rules;
  - parse_digests.py : digest-page parsing into candidate resource records;
  - fetch_images.py  : the image-to-record association heuristic.

Python regular expressions are embedded as explicit character-list scanners
with the same leftmost-match / greedy / lazy semantics as the patterns used
in the sources.  Iterated searches (finditer/findall) consume at least one
character per step, so they are written with a fuel argument initialised to
the input length, which is always sufficient.
-/

set_option maxRecDepth 100000

/-- Strings are modelled as lists of characters (Python `str`). -/
abbrev Str := List Char

/-- ASCII whitespace, the characters Python's `\s` and `str.strip` treat as
whitespace (the Unicode extras never occur in the embedded inputs). -/
def isWs (c : Char) : Bool :=
  c = ' ' || c = Char.ofNat 9 || c = Char.ofNat 10 || c = Char.ofNat 13 ||
  c = Char.ofNat 11 || c = Char.ofNat 12

/-- Python `str.strip()`: drop whitespace from both ends. -/
def pyStrip (cs : Str) : Str :=
  ((cs.dropWhile isWs).reverse.dropWhile isWs).reverse

/-- Numeric value of a decimal digit character. -/
def digitVal (c : Char) : Nat := c.toNat - 48

/-- Lower-casing for ASCII letters and the Cyrillic range used by the
keyword tables (Python `str.lower` restricted to the characters that occur). -/
def lowerChar (c : Char) : Char :=
  if 65 ≤ c.toNat ∧ c.toNat ≤ 90 then Char.ofNat (c.toNat + 32)
  else if 1040 ≤ c.toNat ∧ c.toNat ≤ 1071 then Char.ofNat (c.toNat + 32)
  else if c.toNat = 1025 then Char.ofNat 1105
  else c

/-- Python `str.lower` on a whole string. -/
def lowerStr (cs : Str) : Str := cs.map lowerChar

/-- First occurrence of the literal `pat` in `cs`: the text before it and the
text after it (Python `str.find` / the scanning step of `re.search`). -/
def splitFirst (pat : Str) : Str → Option (Str × Str)
  | [] => if pat.isEmpty then some ([], []) else none
  | c :: r =>
    if pat.isPrefixOf (c :: r) then some ([], (c :: r).drop pat.length)
    else
      match splitFirst pat r with
      | some (b, a) => some (c :: b, a)
      | none => none

/-- Python substring test (`pat in cs`). -/
def containsSub (pat cs : Str) : Bool := (splitFirst pat cs).isSome

/-- Case-insensitive substring test. -/
def containsSubCI (pat cs : Str) : Bool := containsSub (lowerStr pat) (lowerStr cs)

/-- Match a literal case-insensitively at the head, returning the rest. -/
def litCI (pat cs : Str) : Option Str :=
  if (lowerStr pat).isPrefixOf (lowerStr (cs.take pat.length)) ∧ pat.length ≤ cs.length
  then some (cs.drop pat.length) else none

/-- Match a literal exactly at the head, returning the rest. -/
def litCS (pat cs : Str) : Option Str :=
  if pat.isPrefixOf cs then some (cs.drop pat.length) else none

/-- One or more whitespace characters (`\s+`), maximal munch. -/
def ws1 : Str → Option Str
  | [] => none
  | c :: r => if isWs c then some (r.dropWhile isWs) else none

/-- A single or double quote (the character class `["']`). -/
def isQuote (c : Char) : Bool := c = '"' || c = Char.ofNat 39

/-- A quote character, returning the rest. -/
def quote1 : Str → Option Str
  | [] => none
  | c :: r => if isQuote c then some r else none

/-- Maximal nonempty run of non-quote characters followed by a quote
(`([^"']+)["']`): the captured run and the rest after the closing quote. -/
def capToQuote (cs : Str) : Option (Str × Str) :=
  let run := cs.takeWhile (fun c => !isQuote c)
  let rest := cs.dropWhile (fun c => !isQuote c)
  match rest with
  | c :: r => if run.isEmpty then none else if isQuote c then some (run, r) else none
  | [] => none

/-- First `some` of an ordered list of attempts (the waterfall driver). -/
def firstSome {α : Type} : List (Option α) → Option α
  | [] => none
  | o :: rest =>
    match o with
    | some a => some a
    | none => firstSome rest

/-! ## fetch_dates.py — date-string normalization (`parse_date_string`) -/

/-- Exactly `n` decimal digits accumulated into a value (the regex `\d{n}`);
returns the value and the rest. -/
def digitsNAux : Nat → Nat → Str → Option (Nat × Str)
  | acc, 0, cs => some (acc, cs)
  | acc, n + 1, c :: r =>
    if c.isDigit then digitsNAux (10 * acc + digitVal c) n r else none
  | _, _ + 1, [] => none

/-- The regex group `(\d{n})`. -/
def digitsN (n : Nat) (cs : Str) : Option (Nat × Str) := digitsNAux 0 n cs

/-- The regex `(\d{1,2})sep`: one or two digits followed by the literal
separator.  The separator is not a digit, so greedy matching with
backtracking is deterministic. -/
def d12sep (sep : Char) : Str → Option (Nat × Str)
  | a :: b :: r =>
    if a.isDigit then
      if b.isDigit then
        match r with
        | c :: r2 =>
          if c = sep then some (10 * digitVal a + digitVal b, r2) else none
        | [] => none
      else if b = sep then some (digitVal a, r) else none
    else none
  | _ => none

/-- The regex `(\d{1,2})` at the end of a pattern under `re.match`: greedy,
two digits when a second digit is present, otherwise one. -/
def d12end : Str → Option Nat
  | a :: b :: _ =>
    if a.isDigit then
      if b.isDigit then some (10 * digitVal a + digitVal b) else some (digitVal a)
    else none
  | [a] => if a.isDigit then some (digitVal a) else none
  | [] => none

/-- `re.match(r'(\d{4})-(\d{1,2})-(\d{1,2})', ...)`: (year, month, day). -/
def matchISO (cs : Str) : Option (Nat × Nat × Nat) :=
  match digitsN 4 cs with
  | some (y, c :: r1) =>
    if c = '-' then
      match d12sep '-' r1 with
      | some (m, r2) =>
        match d12end r2 with
        | some d => some (y, m, d)
        | none => none
      | none => none
    else none
  | _ => none

/-- `re.match(r'(\d{1,2})/(\d{1,2})/(\d{4})', ...)`: (month, day, year). -/
def matchUS (cs : Str) : Option (Nat × Nat × Nat) :=
  match d12sep '/' cs with
  | some (m, r1) =>
    match d12sep '/' r1 with
    | some (d, r2) =>
      match digitsN 4 r2 with
      | some (y, _) => some (m, d, y)
      | none => none
    | none => none
  | none => none

/-- `re.match(r'(\d{1,2})\.(\d{1,2})\.(\d{4})', ...)`: (day, month, year). -/
def matchEU (cs : Str) : Option (Nat × Nat × Nat) :=
  match d12sep '.' cs with
  | some (d, r1) =>
    match d12sep '.' r1 with
    | some (m, r2) =>
      match digitsN 4 r2 with
      | some (y, _) => some (d, m, y)
      | none => none
    | none => none
  | none => none

/-- The plausibility bounds applied to every parsed date. -/
def okBounds (y m d : Nat) : Bool :=
  decide (1990 ≤ y ∧ y ≤ 2030 ∧ 1 ≤ m ∧ m ≤ 12 ∧ 1 ≤ d ∧ d ≤ 31)

/-- Decimal rendering of a natural number (Python `f"{n}"`); the fuel
`n + 1` always covers the digit count. -/
def natDecAux : Nat → Nat → Str → Str
  | 0, _, acc => acc
  | f + 1, n, acc =>
    if n < 10 then Char.ofNat (48 + n) :: acc
    else natDecAux f (n / 10) (Char.ofNat (48 + n % 10) :: acc)

/-- Decimal rendering of a natural number. -/
def natDec (n : Nat) : Str := natDecAux (n + 1) n []

/-- Python `f"{n:02d}"`. -/
def pad2 (n : Nat) : Str := if n < 10 then '0' :: natDec n else natDec n

/-- The output format `f"{day:02d}.{month:02d}.{year}"`. -/
def fmtDate (d m y : Nat) : Str := pad2 d ++ '.' :: pad2 m ++ '.' :: natDec y

/-- The European-format branch of `parse_date_string`. -/
def tryEU (cs : Str) : Option Str :=
  match matchEU cs with
  | some (d, m, y) => if okBounds y m d then some (fmtDate d m y) else none
  | none => none

/-- The US-format branch of `parse_date_string`, falling through to the
European branch when the US match fails or fails its bounds. -/
def tryUS (cs : Str) : Option Str :=
  match matchUS cs with
  | some (m, d, y) => if okBounds y m d then some (fmtDate d m y) else tryEU cs
  | none => tryEU cs

/-- `parse_date_string` from fetch_dates.py: strip the input, try the ISO,
US and European shapes in that order, check bounds, and format as
zero-padded day.month.year; `none` on any failure. -/
def parse_date_string (raw : Str) : Option Str :=
  match pyStrip raw with
  | [] => none
  | c :: cs =>
    match matchISO (c :: cs) with
    | some (y, m, d) =>
      if okBounds y m d then some (fmtDate d m y) else tryUS (c :: cs)
    | none => tryUS (c :: cs)

/-! ## fetch_dates.py — URL path patterns (`extract_date_from_url`) -/

/-- The pattern `/(\d{4})/(\d{1,2})/(\d{1,2})/` anchored at the head. -/
def urlPat1At (cs : Str) : Option (Nat × Nat × Nat) :=
  match cs with
  | '/' :: r =>
    match digitsN 4 r with
    | some (y, '/' :: r2) =>
      match d12sep '/' r2 with
      | some (m, r3) =>
        match d12sep '/' r3 with
        | some (d, _) => some (y, m, d)
        | none => none
      | none => none
    | _ => none
  | _ => none

/-- `re.search` of the first URL pattern: leftmost match. -/
def searchPat1 : Str → Option (Nat × Nat × Nat)
  | [] => none
  | c :: r =>
    match urlPat1At (c :: r) with
    | some v => some v
    | none => searchPat1 r

/-- The pattern `/(\d{4})-(\d{2})-(\d{2})/` anchored at the head. -/
def urlPat2At (cs : Str) : Option (Nat × Nat × Nat) :=
  match cs with
  | '/' :: r =>
    match digitsN 4 r with
    | some (y, '-' :: r2) =>
      match digitsN 2 r2 with
      | some (m, '-' :: r3) =>
        match digitsN 2 r3 with
        | some (d, '/' :: _) => some (y, m, d)
        | _ => none
      | _ => none
    | _ => none
  | _ => none

/-- `re.search` of the second URL pattern: leftmost match. -/
def searchPat2 : Str → Option (Nat × Nat × Nat)
  | [] => none
  | c :: r =>
    match urlPat2At (c :: r) with
    | some v => some v
    | none => searchPat2 r

/-- The second-pattern half of `extract_date_from_url`. -/
def tryUrlPat2 (url : Str) : Option Str :=
  match searchPat2 url with
  | some (y, m, d) => if okBounds y m d then some (fmtDate d m y) else none
  | none => none

/-- `extract_date_from_url` from fetch_dates.py: the `/YYYY/M/D/` pattern
first (bounds checked on its leftmost match only), then `/YYYY-MM-DD/`. -/
def extract_date_from_url (url : Str) : Option Str :=
  match searchPat1 url with
  | some (y, m, d) =>
    if okBounds y m d then some (fmtDate d m y) else tryUrlPat2 url
  | none => tryUrlPat2 url

/-! ## classify.py — type classification -/

def VIDEO_DOMAINS : List Str :=
  ["youtube.com".data, "youtu.be".data, "vimeo.com".data, "twitch.tv".data]

def SOCIAL_DOMAINS : List Str :=
  ["twitter.com".data, "x.com".data, "reddit.com".data]

def ARTICLE_DOMAINS : List Str :=
  ["80.lv".data, "habr.com".data, "dtf.ru".data, "gamedeveloper.com".data,
   "newsletter.gamediscover.co".data, "kotaku.com".data, "venturebeat.com".data,
   "wccftech.com".data, "nplus1.ru".data, "3dnews.ru".data, "vc.ru".data]

def REPO_DOMAINS : List Str :=
  ["github.com".data, "gitlab.com".data]

def STORE_DOMAINS : List Str :=
  ["store.steampowered.com".data, "store.epicgames.com".data,
   "assetstore.unity.com".data, "fab.com".data, "itch.io".data, "gumroad.com".data]

/-- Python set membership `domain in SET`. -/
def elemStr (d : Str) (l : List Str) : Bool := decide (d ∈ l)

/-- Python `str.endswith`. -/
def endsWithStr (suffix d : Str) : Bool := suffix.isSuffixOf d

/-- The suffix loop `any(domain.endswith("." + k) for k in SET)`. -/
def suffixAny (d : Str) (l : List Str) : Bool :=
  l.any (fun x => endsWithStr ('.' :: x) d)

/-- `classify_type` from classify.py: exact membership in each label set in
the fixed order (including the article set), then the subdomain-suffix pass
over the four non-article sets, then the `article` fallback. -/
def classify_type (domain : Str) : Str :=
  if elemStr domain VIDEO_DOMAINS then "video".data
  else if elemStr domain SOCIAL_DOMAINS then "social".data
  else if elemStr domain REPO_DOMAINS then "repository".data
  else if elemStr domain STORE_DOMAINS then "store".data
  else if elemStr domain ARTICLE_DOMAINS then "article".data
  else if suffixAny domain VIDEO_DOMAINS then "video".data
  else if suffixAny domain SOCIAL_DOMAINS then "social".data
  else if suffixAny domain REPO_DOMAINS then "repository".data
  else if suffixAny domain STORE_DOMAINS then "store".data
  else "article".data

/-! ## classify.py — tag classification -/

/-- A word character for the `\b` boundary: ASCII alphanumerics, underscore
and the Cyrillic block (Python `\w` restricted to the characters that occur). -/
def isWordChar (c : Char) : Bool :=
  c.isAlphanum || c = Char.ofNat 95 || (1024 ≤ c.toNat && c.toNat ≤ 1279)

/-- One attempt of `\bword\b` at the current position; `prev` is the
character just before the position, if any. -/
def wordAt (w : Str) (prev : Option Char) (t : Str) : Bool :=
  w.isPrefixOf t &&
  (match prev with
   | none => true
   | some p => !isWordChar p) &&
  (match t.drop w.length with
   | [] => true
   | c :: _ => !isWordChar c)

/-- `re.search` of `\bword\b`: try every position left to right. -/
def wordSearchAux (w : Str) (prev : Option Char) : Str → Bool
  | [] => wordAt w prev []
  | c :: r => wordAt w prev (c :: r) || wordSearchAux w (some c) r

/-- The compiled word-boundary patterns (`RE_AI` and friends); `ci` is the
`re.IGNORECASE` flag. -/
def wordSearch (w : Str) (ci : Bool) (t : Str) : Bool :=
  if ci then wordSearchAux (lowerStr w) none (lowerStr t)
  else wordSearchAux w none t

/-- Keyword test on the lower-cased text (`kw in text.lower()`). -/
def kwLower (kw : Str) (t : Str) : Bool := containsSub kw (lowerStr t)

/-- Unreal Engine rule: domain branch, else keyword branch. -/
def unrealGuard (d t : Str) : Bool :=
  (endsWithStr "unrealengine.com".data d || d == "unrealengine.com".data) ||
  (kwLower "unreal engine".data t || kwLower "unreal".data t ||
   wordSearch "UE4".data false t || wordSearch "UE5".data false t)

/-- Unity rule. -/
def unityGuard (d t : Str) : Bool :=
  (d == "blog.unity.com".data || d == "unity.com".data ||
   endsWithStr ".unity.com".data d) ||
  kwLower "unity".data t

/-- Godot rule. -/
def godotGuard (d t : Str) : Bool :=
  (endsWithStr "godotengine.org".data d || d == "godotengine.org".data) ||
  kwLower "godot".data t

/-- Opensource rule. -/
def opensourceGuard (d t : Str) : Bool :=
  (d == "github.com".data || d == "gitlab.com".data ||
   endsWithStr ".github.com".data d || endsWithStr ".gitlab.com".data d) ||
  (kwLower "open source".data t || kwLower "opensource".data t ||
   kwLower "открытый код".data t || kwLower "open-source".data t)

/-- Free rule. -/
def freeGuard (d t : Str) : Bool :=
  kwLower "бесплатн".data t || wordSearch "free".data true t ||
  d == "itch.io".data || endsWithStr ".itch.io".data d

/-- Steam rule. -/
def steamGuard (d t : Str) : Bool :=
  (endsWithStr "steampowered.com".data d || d == "steampowered.com".data) ||
  kwLower "steam".data t

/-- PlayStation rule (the PS4/PS5 tests are case-sensitive substring tests). -/
def playstationGuard (t : Str) : Bool :=
  kwLower "playstation".data t || containsSub "PS4".data t || containsSub "PS5".data t

/-- Nintendo rule. -/
def nintendoGuard (t : Str) : Bool :=
  kwLower "nintendo".data t || wordSearch "Switch".data false t

/-- AI rule (`RE_AI` is case-sensitive with word boundaries). -/
def aiGuard (t : Str) : Bool :=
  wordSearch "AI".data false t || kwLower "machine learning".data t ||
  kwLower "нейросет".data t || kwLower "искусственн".data t

/-- XR rule. -/
def xrGuard (t : Str) : Bool :=
  wordSearch "VR".data false t || wordSearch "AR".data false t ||
  wordSearch "XR".data false t || kwLower "virtual reality".data t ||
  kwLower "виртуальн".data t

/-- The tag rules of `classify_tags` in their declared order, each as a
guard paired with its label (an if/elif pair in the source appends the same
label, so it is one disjunctive guard here). -/
def tagGuards (d t : Str) : List (Bool × Str) :=
  [(unrealGuard d t, "unreal engine".data),
   (unityGuard d t, "unity".data),
   (godotGuard d t, "godot".data),
   (kwLower "blender".data t, "blender".data),
   (kwLower "houdini".data t, "houdini".data),
   (kwLower "substance".data t, "substance".data),
   (wordSearch "Maya".data false t, "maya".data),
   (kwLower "zbrush".data t, "zbrush".data),
   (opensourceGuard d t, "opensource".data),
   (freeGuard d t, "free".data),
   (steamGuard d t, "steam".data),
   (playstationGuard t, "playstation".data),
   (kwLower "xbox".data t, "xbox".data),
   (nintendoGuard t, "nintendo".data),
   (aiGuard t, "ai".data),
   (xrGuard t, "xr".data),
   (kwLower "shader".data t || kwLower "шейдер".data t, "shaders".data),
   (kwLower "animation".data t || kwLower "анимаци".data t, "animation".data),
   (kwLower "procedural".data t || kwLower "процедурн".data t, "procedural".data)]

/-- `classify_tags` from classify.py: the source appends each rule's label
when its guard fires, in declared order, which is the guard-table filter. -/
def classify_tags (d t : Str) : List Str :=
  ((tagGuards d t).filter (fun p => p.1)).map (fun p => p.2)

/-! ## parse_digests.py — digest-page parsing -/

/-- Match `<name[^>]*>` at the head of `cs` (case-sensitive, as in the
article/h3 patterns): the rest after the closing angle bracket. -/
def tagOpenAt (name : Str) (cs : Str) : Option Str :=
  match cs with
  | '<' :: r =>
    if name.isPrefixOf r then
      let r2 := r.drop name.length
      match r2.dropWhile (fun c => c ≠ '>') with
      | '>' :: r3 => some r3
      | _ => none
    else none
  | _ => none

/-- Match `<name[^>]*>(.*?)</name>` at the head: the lazy group runs to the
first closing tag. -/
def tagAt (name : Str) (cs : Str) : Option (Str × Str) :=
  match tagOpenAt name cs with
  | some r =>
    match splitFirst ('<' :: '/' :: (name ++ ['>'])) r with
    | some (inner, rest) => some (inner, rest)
    | none => none
  | none => none

/-- `re.search` of `<name[^>]*>(.*?)</name>`: leftmost match, returning the
text before the match, the inner group, and the text after the match. -/
def findTagSplit (name : Str) : Str → Option (Str × Str × Str)
  | [] => none
  | c :: r =>
    match tagAt name (c :: r) with
    | some (inner, rest) => some ([], inner, rest)
    | none =>
      match findTagSplit name r with
      | some (p, inner, rest) => some (c :: p, inner, rest)
      | none => none

/-- The main content region: group 1 of
`re.search(r'<article[^>]*>(.*?)</article>', html, re.DOTALL)`. -/
def articleBody (html : Str) : Option Str :=
  match findTagSplit "article".data html with
  | some (_, inner, _) => some inner
  | none => none

/-- `re.finditer(r'<h3[^>]*>(.*?)</h3>', ...)` written on the gap
decomposition: the list of (gap before the match, inner group) pairs and the
trailing gap.  Every match consumes at least one character, so fuel equal to
the input length is always sufficient. -/
def h3ListF : Nat → Str → List (Str × Str) × Str
  | 0, cs => ([], cs)
  | fuel + 1, cs =>
    match findTagSplit "h3".data cs with
    | some (g, inner, rest) =>
      let (l, t) := h3ListF fuel rest
      ((g, inner) :: l, t)
    | none => ([], cs)

/-- All h3 matches of the article body, with the gaps between them. -/
def h3List (cs : Str) : List (Str × Str) × Str := h3ListF cs.length cs

/-- One heading of a digest with its two surrounding zones: `beforeZone` is
the text from the end of the previous heading (or region start) to this
heading, `afterZone` from the end of this heading to the next heading (or
region end).  `afterZone` is also the parser's content block. -/
structure Seg where
  inner : Str
  beforeZone : Str
  afterZone : Str
deriving DecidableEq

/-- Rebuild the per-heading zones from the gap decomposition: heading i has
before-zone gap i and after-zone gap i+1 (the trailing gap for the last). -/
def mkSegs : List (Str × Str) → Str → List Seg
  | [], _ => []
  | [(g, h)], t => [⟨h, g, t⟩]
  | (g, h) :: (g2, h2) :: rest, t => ⟨h, g, g2⟩ :: mkSegs ((g2, h2) :: rest) t

/-- The headings of the article body with their zones. -/
def segsOf (art : Str) : List Seg :=
  match h3List art with
  | (ps, t) => mkSegs ps t

/-- The headings of a whole document (empty when no content region). -/
def segsOfDoc (html : Str) : List Seg :=
  match articleBody html with
  | some art => segsOf art
  | none => []

/-- `re.sub(r'<[^>]+>', rep, ...)`: replace every complete tag by `rep`.
A match consumes at least three characters, so fuel equal to the input
length is always sufficient. -/
def stripTagsF (rep : Str) : Nat → Str → Str
  | 0, cs => cs
  | _ + 1, [] => []
  | fuel + 1, '<' :: r =>
    match r.takeWhile (fun c => c ≠ '>'), r.dropWhile (fun c => c ≠ '>') with
    | _ :: _, _ :: rest2 => rep ++ stripTagsF rep fuel rest2
    | _, _ => '<' :: stripTagsF rep fuel r
  | fuel + 1, c :: r => c :: stripTagsF rep fuel r

/-- Tag stripping with empty replacement (titles). -/
def stripTags (cs : Str) : Str := stripTagsF [] (cs.length + 1) cs

/-- Tag stripping with single-space replacement (descriptions). -/
def stripTagsSpace (cs : Str) : Str := stripTagsF [' '] (cs.length + 1) cs

/-- `re.sub(r'\s+', ' ', ...)`: collapse whitespace runs to single spaces. -/
def collapseWsAux (prevWs : Bool) : Str → Str
  | [] => []
  | c :: r =>
    if isWs c then
      if prevWs then collapseWsAux true r else ' ' :: collapseWsAux true r
    else c :: collapseWsAux false r

/-- Whitespace collapsing. -/
def collapseWs (cs : Str) : Str := collapseWsAux false cs

/-- The named HTML entities expanded by the embedding of `html.unescape`.
Only titles are unescaped, and no claim depends on entity expansion, so the
table carries the entities that occur in the digests. -/
def entityTable : List (Str × Char) :=
  [("amp;".data, '&'), ("lt;".data, '<'), ("gt;".data, '>'),
   ("quot;".data, '"'), ("apos;".data, Char.ofNat 39),
   ("nbsp;".data, Char.ofNat 160), ("mdash;".data, Char.ofNat 8212),
   ("ndash;".data, Char.ofNat 8211), ("laquo;".data, Char.ofNat 171),
   ("raquo;".data, Char.ofNat 187), ("hellip;".data, Char.ofNat 8230)]

/-- Try the entity table after an ampersand. -/
def findEntity : List (Str × Char) → Str → Option (Char × Str)
  | [], _ => none
  | (k, ch) :: rest, cs =>
    if k.isPrefixOf cs then some (ch, cs.drop k.length) else findEntity rest cs

/-- `html.unescape`, fuelled (each replacement consumes several characters). -/
def unescapeF : Nat → Str → Str
  | 0, cs => cs
  | _ + 1, [] => []
  | fuel + 1, '&' :: r =>
    match findEntity entityTable r with
    | some (ch, rest) => ch :: unescapeF fuel rest
    | none => '&' :: unescapeF fuel r
  | fuel + 1, c :: r => c :: unescapeF fuel r

/-- `html.unescape` on the entity subset of `entityTable`. -/
def unescape (cs : Str) : Str := unescapeF (cs.length + 1) cs

/-- Match `<a\s+href="([^"]+)"` at the head (the block-link findall
pattern): the captured href and the rest after its closing double quote. -/
def aHrefShortAt (cs : Str) : Option (Str × Str) :=
  match litCS "<a".data cs with
  | some r1 =>
    match ws1 r1 with
    | some r2 =>
      match litCS ('h' :: 'r' :: 'e' :: 'f' :: '=' :: ['"']) r2 with
      | some r3 =>
        let run := r3.takeWhile (fun c => c ≠ '"')
        let rest := r3.dropWhile (fun c => c ≠ '"')
        match rest with
        | '"' :: r4 => if run.isEmpty then none else some (run, r4)
        | _ => none
      | none => none
    | none => none
  | none => none

/-- Match `<a\s+href="([^"]+)"[^>]*>` at the head (the heading-anchor
prefix): the captured href and the rest after the closing angle bracket. -/
def aOpenAt (cs : Str) : Option (Str × Str) :=
  match aHrefShortAt cs with
  | some (cap, r) =>
    match r.dropWhile (fun c => c ≠ '>') with
    | '>' :: r2 => some (cap, r2)
    | _ => none
  | none => none

/-- Match `<a\s+href="([^"]+)"[^>]*>(.*?)</a>` at the head (the parser's
format-1 pattern): captured href, anchor inner HTML, rest. -/
def aClosedAt (cs : Str) : Option (Str × Str × Str) :=
  match aOpenAt cs with
  | some (cap, r) =>
    match splitFirst "</a>".data r with
    | some (t, rest) => some (cap, t, rest)
    | none => none
  | none => none

/-- `re.search` of the open-anchor pattern (fetch_images.py's heading
search, which does not require a closing tag): leftmost captured href. -/
def aHrefOpen : Str → Option Str
  | [] => none
  | c :: r =>
    match aOpenAt (c :: r) with
    | some (cap, _) => some cap
    | none => aHrefOpen r

/-- `re.search` of the closed-anchor pattern (parse_digests.py's format-1
search): leftmost captured href and anchor inner HTML. -/
def aHrefClosed : Str → Option (Str × Str)
  | [] => none
  | c :: r =>
    match aClosedAt (c :: r) with
    | some (cap, t, _) => some (cap, t)
    | none => aHrefClosed r

/-- `re.findall(r'<a\s+href="([^"]+)"', block)`: all captured hrefs in
order; fuel equal to the block length is always sufficient. -/
def aHrefsF : Nat → Str → List Str
  | 0, _ => []
  | _ + 1, [] => []
  | fuel + 1, c :: r =>
    match aHrefShortAt (c :: r) with
    | some (cap, rest) => cap :: aHrefsF fuel rest
    | none => aHrefsF fuel r

/-- All block anchor hrefs in order. -/
def aHrefs (cs : Str) : List Str := aHrefsF cs.length cs

/-- The block-link candidate filter shared by parse_digests.py and
fetch_images.py: not an upload path, not a fragment anchor, absolute HTTP. -/
def goodCandidate (c : Str) : Bool :=
  !containsSub "wp-content/uploads".data c &&
  !"#".data.isPrefixOf c &&
  "http".data.isPrefixOf c

/-- Link recovery from a content block: the first anchor href passing the
filter (the `for candidate in block_links` loop of both sources). -/
def blockLink (block : Str) : Option Str :=
  (aHrefs block).find? goodCandidate

/-- The self-link filter: `'suvitruf.ru' in link and 'wp-content' not in
link`. -/
def selfLink (l : Str) : Bool :=
  containsSub "suvitruf.ru".data l && !containsSub "wp-content".data l

/-- The description of a content block: tags replaced by spaces, whitespace
collapsed, stripped, truncated to 197 characters plus an ellipsis marker
when longer than 200. -/
def descOf (block : Str) : Str :=
  let t := pyStrip (collapseWs (stripTagsSpace block))
  if 200 < t.length then t.take 197 ++ "...".data else t

/-- One candidate record of the digest parser. -/
structure Resource where
  link : Str
  title : Str
  description : Str
deriving DecidableEq

/-- The candidate title of a heading: the closed anchor's inner text when
the heading has one (format 1), else the heading's own text; in both cases
tag-stripped, stripped and HTML-unescaped. -/
def titleOf (inner : Str) : Str :=
  match aHrefClosed (pyStrip inner) with
  | some (_, t) => unescape (pyStrip (stripTags t))
  | none => unescape (pyStrip (stripTags (pyStrip inner)))

/-- The candidate link of a heading: the closed anchor's stripped href when
the heading has one and it is nonempty (`if not link` also catches the
empty string), else the recovered block link. -/
def linkOf (inner blockHtml : Str) : Option Str :=
  match aHrefClosed (pyStrip inner) with
  | some (cap, _) =>
    if (pyStrip cap).isEmpty then blockLink blockHtml else some (pyStrip cap)
  | none => blockLink blockHtml

/-- The per-heading body of `extract_resources_from_digest`'s loop: empty
titles and unresolvable or self-referential links drop the candidate. -/
def resourceFromSeg (inner blockHtml : Str) : Option Resource :=
  if (titleOf inner).isEmpty then none
  else
    match linkOf inner blockHtml with
    | none => none
    | some link =>
      if link.isEmpty then none
      else if selfLink link then none
      else some ⟨link, titleOf inner, descOf blockHtml⟩

/-- `extract_resources_from_digest` from parse_digests.py. -/
def extract_resources_from_digest (html : Str) : List Resource :=
  (segsOfDoc html).filterMap (fun s => resourceFromSeg s.inner s.afterZone)

/-! ## fetch_images.py — image association -/

/-- The backtracking tail of `<TAG[^>]+attr=["'](...)["']`: scan the
non-`>` run for the last position where the attribute literal, an opening
quote, a captured non-quote run satisfying `check`, and a closing quote all
match (greedy `[^>]+` tries the longest gap first, hence the last
position).  Returns the capture and the rest after the closing quote. -/
def lastAttrGo (attrLit : Str) (check : Str → Bool) : Str → Option (Str × Str)
  | [] => none
  | c :: r =>
    if c = '>' then none
    else
      match lastAttrGo attrLit check r with
      | some res => some res
      | none =>
        match litCI attrLit (c :: r) with
        | some r1 =>
          match quote1 r1 with
          | some r2 =>
            let run := r2.takeWhile (fun q => !isQuote q)
            let rest := r2.dropWhile (fun q => !isQuote q)
            match rest with
            | q :: r3 => if isQuote q && check run then some (run, r3) else none
            | [] => none
          | none => none
        | none => none

/-- One attempt of `<TAG[^>]+attr=["'](...)["']` at the head: the tag
literal, at least one non-`>` character, then the attribute tail. -/
def tagAttrAt (openLit attrLit : Str) (check : Str → Bool) (cs : Str) :
    Option (Str × Str) :=
  match litCI openLit cs with
  | some r =>
    match r with
    | [] => none
    | c0 :: r0 => if c0 = '>' then none else lastAttrGo attrLit check r0
  | none => none

/-- `re.finditer` of a tag-attribute pattern: captures in document order,
resuming after each match; fuel equal to the input length suffices. -/
def tagAttrAllF (openLit attrLit : Str) (check : Str → Bool) :
    Nat → Str → List Str
  | 0, _ => []
  | _ + 1, [] => []
  | fuel + 1, c :: r =>
    match tagAttrAt openLit attrLit check (c :: r) with
    | some (cap, rest) => cap :: tagAttrAllF openLit attrLit check fuel rest
    | none => tagAttrAllF openLit attrLit check fuel r

/-- The image references of a zone:
`<img[^>]+src=["']([^"']*wp-content/uploads[^"']*)["']` (IGNORECASE), in
document order. -/
def imgSrcs (zone : Str) : List Str :=
  tagAttrAllF "<img".data "src=".data
    (fun run => containsSubCI "wp-content/uploads".data run) zone.length zone

/-- The first image reference of a zone not yet claimed. -/
def firstFresh (imgs claimed : List Str) : Option Str :=
  imgs.find? (fun i => !claimed.any (fun c => c == i))

/-- Python dict assignment `m[k] = v`: replace the value when the key is
present, append otherwise. -/
def dictSet (m : List (Str × Str)) (k v : Str) : List (Str × Str) :=
  if m.any (fun p => p.1 == k) then
    m.map (fun p => if p.1 == k then (k, v) else p)
  else m ++ [(k, v)]

/-- fetch_images.py's per-heading link resolution: an open-anchor href in
the stripped heading (no closing tag required), else block recovery. -/
def imgSegLink (inner blockHtml : Str) : Option Str :=
  match aHrefOpen (pyStrip inner) with
  | some cap => some (pyStrip cap)
  | none => blockLink blockHtml

/-- The resolved link after fetch_images.py's guards (`if not
resource_link: continue` and the self-link filter). -/
def imgResolved (s : Seg) : Option Str :=
  match imgSegLink s.inner s.afterZone with
  | some l => if l.isEmpty then none else if selfLink l then none else some l
  | none => none

/-- The greedy forward pass of `extract_image_map`: per heading, resolve the
link, scan the after-zone then the before-zone for an unclaimed image, and
claim it. -/
def imgMapGo : List Seg → List Str → List (Str × Str) → List (Str × Str)
  | [], _, m => m
  | s :: rest, claimed, m =>
    match imgResolved s with
    | none => imgMapGo rest claimed m
    | some l =>
      match firstFresh (imgSrcs s.afterZone) claimed with
      | some img => imgMapGo rest (img :: claimed) (dictSet m l img)
      | none =>
        match firstFresh (imgSrcs s.beforeZone) claimed with
        | some img => imgMapGo rest (img :: claimed) (dictSet m l img)
        | none => imgMapGo rest claimed m

/-- `extract_image_map` from fetch_images.py (the digest number only names
the output directory and does not affect the mapping). -/
def extract_image_map (html : Str) : List (Str × Str) :=
  imgMapGo (segsOfDoc html) [] []

/-- Well-formedness of one heading for the amended image/parser refinement:
when the heading has an (open) anchor, the parser's closed-anchor search
must find the same href with a nonempty stripped title; an anchorless
heading must have a nonempty title or no recoverable block link. -/
def goodSeg (inner blockHtml : Str) : Bool :=
  let h := pyStrip inner
  match aHrefOpen h with
  | some cap =>
    match aHrefClosed h with
    | some (cap2, t) => cap2 == cap && !(unescape (pyStrip (stripTags t))).isEmpty
    | none => false
  | none =>
    !(unescape (pyStrip (stripTags h))).isEmpty || (blockLink blockHtml).isNone

/-! ## fetch_dates.py — the HTML metadata strategies -/

/-- Branch A of the meta patterns:
`attr=["']key["']\s+content=["']([^"']+)["']`. -/
def metaBranchA (attr key : Str) (cs : Str) : Option Str :=
  match litCI (attr ++ ['=']) cs with
  | some r1 =>
    match quote1 r1 with
    | some r2 =>
      match litCI key r2 with
      | some r3 =>
        match quote1 r3 with
        | some r4 =>
          match ws1 r4 with
          | some r5 =>
            match litCI "content=".data r5 with
            | some r6 =>
              match quote1 r6 with
              | some r7 =>
                match capToQuote r7 with
                | some (cap, _) => some cap
                | none => none
              | none => none
            | none => none
          | none => none
        | none => none
      | none => none
    | none => none
  | none => none

/-- Branch B of the meta patterns:
`content=["']([^"']+)["']\s+attr=["']key["']`. -/
def metaBranchB (attr key : Str) (cs : Str) : Option Str :=
  match litCI "content=".data cs with
  | some r1 =>
    match quote1 r1 with
    | some r2 =>
      match capToQuote r2 with
      | some (cap, r3) =>
        match ws1 r3 with
        | some r4 =>
          match litCI (attr ++ ['=']) r4 with
          | some r5 =>
            match quote1 r5 with
            | some r6 =>
              match litCI key r6 with
              | some r7 => if (quote1 r7).isSome then some cap else none
              | none => none
            | none => none
          | none => none
        | none => none
      | none => none
    | none => none
  | none => none

/-- One attempt of `<meta\s+(?:A|B)` at the head (IGNORECASE). -/
def metaAt (attr key : Str) (cs : Str) : Option Str :=
  match litCI "<meta".data cs with
  | some r0 =>
    match ws1 r0 with
    | some r1 =>
      match metaBranchA attr key r1 with
      | some cap => some cap
      | none => metaBranchB attr key r1
    | none => none
  | none => none

/-- `re.search` of a meta pattern: leftmost captured content value. -/
def metaSearch (attr key : Str) : Str → Option Str
  | [] => none
  | c :: r =>
    match metaAt attr key (c :: r) with
    | some cap => some cap
    | none => metaSearch attr key r

/-- Strategy 1: the Open Graph `article:published_time` meta tag; a found
but unparseable value falls through to the next strategy. -/
def strat1 (html : Str) : Option Str :=
  match metaSearch "property".data "article:published_time".data html with
  | some raw => parse_date_string raw
  | none => none

/-- The alternative meta date names of strategy 2, in priority order. -/
def metaNames : List Str :=
  ["date".data, "pubdate".data, "DC.date.issued".data,
   "publish_date".data, "article:published".data]

/-- Strategy 2: the name-keyed meta date tags; for each name only its first
match is considered, and an unparseable value moves to the next name. -/
def strat2 (html : Str) : Option Str :=
  firstSome (metaNames.map (fun n =>
    match metaSearch "name".data n html with
    | some raw => parse_date_string raw
    | none => none))

/-- Case-insensitive first occurrence of a literal. -/
def splitFirstCI (pat : Str) : Str → Option (Str × Str)
  | [] => if pat.isEmpty then some ([], []) else none
  | c :: r =>
    match litCI pat (c :: r) with
    | some rest => some ([], rest)
    | none =>
      match splitFirstCI pat r with
      | some (b, a) => some (c :: b, a)
      | none => none

/-- `type=["']application/ld\+json["']` anchored at the head (IGNORECASE). -/
def typeAttrAt (cs : Str) : Bool :=
  match litCI "type=".data cs with
  | some r1 =>
    match quote1 r1 with
    | some r2 =>
      match litCI "application/ld+json".data r2 with
      | some r3 => (quote1 r3).isSome
      | none => false
    | none => false
  | none => false

/-- The type attribute somewhere in a tag's attribute run. -/
def hasTypeAttr : Str → Bool
  | [] => false
  | c :: r => typeAttrAt (c :: r) || hasTypeAttr r

/-- One attempt of
`<script[^>]+type=["']application/ld\+json["'][^>]*>(.*?)</script>` at the
head: the attribute run is the maximal non-`>` span, the type attribute
must start after at least one character of it, and the lazy group runs to
the first closing tag. -/
def scriptAt (cs : Str) : Option (Str × Str) :=
  match litCI "<script".data cs with
  | some r =>
    match r.dropWhile (fun c => c ≠ '>') with
    | '>' :: r2 =>
      match r.takeWhile (fun c => c ≠ '>') with
      | [] => none
      | _ :: runTail =>
        if hasTypeAttr runTail then
          match splitFirstCI "</script>".data r2 with
          | some (inner, rest) => some (inner, rest)
          | none => none
        else none
    | _ => none
  | none => none

/-- `re.findall` of the JSON-LD script pattern: block bodies in order. -/
def scriptBlocksF : Nat → Str → List Str
  | 0, _ => []
  | _ + 1, [] => []
  | fuel + 1, c :: r =>
    match scriptAt (c :: r) with
    | some (inner, rest) => inner :: scriptBlocksF fuel rest
    | none => scriptBlocksF fuel r

/-- All JSON-LD script blocks of a document. -/
def scriptBlocks (html : Str) : List Str := scriptBlocksF html.length html

/-- `"datePublished"\s*:\s*"([^"]+)"` anchored at the head
(case-sensitive). -/
def ldDateAt (cs : Str) : Option Str :=
  match litCS "\"datePublished\"".data cs with
  | some r1 =>
    match r1.dropWhile isWs with
    | ':' :: r3 =>
      match (r3.dropWhile isWs) with
      | '"' :: r5 =>
        let run := r5.takeWhile (fun c => c ≠ '"')
        match r5.dropWhile (fun c => c ≠ '"') with
        | '"' :: _ => if run.isEmpty then none else some run
        | _ => none
      | _ => none
    | _ => none
  | none => none

/-- `re.search` of the `datePublished` field inside one block. -/
def ldDateSearch : Str → Option Str
  | [] => none
  | c :: r =>
    match ldDateAt (c :: r) with
    | some raw => some raw
    | none => ldDateSearch r

/-- Strategy 3: the first block whose `datePublished` value parses; a block
with an unparseable value moves to the next block. -/
def strat3 (html : Str) : Option Str :=
  firstSome ((scriptBlocks html).map (fun b =>
    match ldDateSearch b with
    | some raw => parse_date_string raw
    | none => none))

/-- The `datetime` captures of `<time[^>]+datetime=["']([^"']+)["']`
(IGNORECASE), in document order. -/
def timeDatetimes (html : Str) : List Str :=
  tagAttrAllF "<time".data "datetime=".data (fun run => !run.isEmpty)
    html.length html

/-- Strategy 4: the first `<time datetime=...>` value that parses. -/
def strat4 (html : Str) : Option Str :=
  firstSome ((timeDatetimes html).map parse_date_string)

/-- `extract_date_from_html` from fetch_dates.py: the four document
strategies in order, then the URL path patterns. -/
def extract_date_from_html (html url : Str) : Option Str :=
  match strat1 html with
  | some d => some d
  | none =>
    match strat2 html with
    | some d => some d
    | none =>
      match strat3 html with
      | some d => some d
      | none =>
        match strat4 html with
        | some d => some d
        | none => extract_date_from_url url

/-- The sentinel date `DEFAULT_DATE`. -/
def defaultDate : Str := "01.01.1970".data

/-- `process_single_url` from fetch_dates.py, with the network fetch
modelled as an `Option Str` oracle argument (the body after `fetch_url`):
document strategies when the fetch succeeded, then the URL pattern on its
own, then the sentinel.  Only the date component of the returned pair is
modelled; the URL component merely echoes the argument. -/
def process_single_url (fetched : Option Str) (url : Str) : Str :=
  match fetched with
  | some html =>
    match extract_date_from_html html url with
    | some date => date
    | none =>
      match extract_date_from_url url with
      | some date => date
      | none => defaultDate
  | none =>
    match extract_date_from_url url with
    | some date => date
    | none => defaultDate

/-! ## Specification predicates

These are written from the specification's wording (the three accepted date
shapes with their bounds, and the standalone-token condition for keyword
matching), to be compared with the embedded source functions. -/

/-- Every character is a decimal digit. -/
def AllDigits (l : Str) : Prop := ∀ c ∈ l, c.isDigit = true

/-- Value of the fold from an accumulator (decimal reading). -/
def valFrom (acc : Nat) (l : Str) : Nat :=
  l.foldl (fun a c => 10 * a + digitVal c) acc

/-- Decimal value of a digit string (Python `int` of a captured group). -/
def digitsVal (l : Str) : Nat := valFrom 0 l

/-- A one-or-two-digit group with its value. -/
def Dig12 (l : Str) (v : Nat) : Prop :=
  AllDigits l ∧ (l.length = 1 ∨ l.length = 2) ∧ digitsVal l = v

/-- A four-digit group with its value. -/
def Dig4 (l : Str) (v : Nat) : Prop :=
  AllDigits l ∧ l.length = 4 ∧ digitsVal l = v

/-- The text does not continue with a digit. -/
def NoDigitHead : Str → Prop
  | [] => True
  | c :: _ => c.isDigit = false

/-- The year-first, dash-separated shape as a prefix of the input: a 4-digit
year, dash, 1-2 digit month, dash, 1-2 digit day read greedily (the day
group cannot stop before a following digit), arbitrary remainder. -/
def SpecISO (cs : Str) (y m d : Nat) : Prop :=
  ∃ ys ms ds rest,
    cs = ys ++ '-' :: (ms ++ '-' :: (ds ++ rest)) ∧
    Dig4 ys y ∧ Dig12 ms m ∧ Dig12 ds d ∧ (ds.length = 2 ∨ NoDigitHead rest)

/-- The month-first, slash-separated shape as a prefix of the input. -/
def SpecUS (cs : Str) (m d y : Nat) : Prop :=
  ∃ ms ds ys rest,
    cs = ms ++ '/' :: (ds ++ '/' :: (ys ++ rest)) ∧
    Dig12 ms m ∧ Dig12 ds d ∧ Dig4 ys y

/-- The day-first, dot-separated shape as a prefix of the input. -/
def SpecEU (cs : Str) (d m y : Nat) : Prop :=
  ∃ ds ms ys rest,
    cs = ds ++ '.' :: (ms ++ '.' :: (ys ++ rest)) ∧
    Dig12 ds d ∧ Dig12 ms m ∧ Dig4 ys y

/-- The configured plausible ranges: year 1990–2030, month 1–12, day 1–31. -/
def InBounds (y m d : Nat) : Prop :=
  1990 ≤ y ∧ y ≤ 2030 ∧ 1 ≤ m ∧ m ≤ 12 ∧ 1 ≤ d ∧ d ≤ 31

/-- The specification's acceptance condition for `parse_date_string`: one of
the three shapes, within the plausible bounds. -/
def SpecDate (cs : Str) (d m y : Nat) : Prop :=
  InBounds y m d ∧ (SpecISO cs y m d ∨ SpecUS cs m d y ∨ SpecEU cs d m y)

/-- An occurrence of `w` in `t` as a standalone token: nothing or a
non-word character on each side. -/
def WordOcc (w t : Str) : Prop :=
  ∃ pre post, t = pre ++ (w ++ post) ∧
    (pre = [] ∨ ∃ p0 pr, pre = pr ++ [p0] ∧ isWordChar p0 = false) ∧
    (post = [] ∨ ∃ c cs2, post = c :: cs2 ∧ isWordChar c = false)

/-! ## Lemmas and claim theorems -/

/-- The labels of the guard table, independent of the guards. -/
theorem tagGuards_labels (d t : Str) :
    (tagGuards d t).map (fun p => p.2) =
      ["unreal engine".data, "unity".data, "godot".data, "blender".data,
       "houdini".data, "substance".data, "maya".data, "zbrush".data,
       "opensource".data, "free".data, "steam".data, "playstation".data,
       "xbox".data, "nintendo".data, "ai".data, "xr".data, "shaders".data,
       "animation".data, "procedural".data] := rfl

/-- A fired guard puts its label in the tag list. -/
theorem tag_of_guard (d t : Str) (b : Bool) (tag : Str)
    (hm : (b, tag) ∈ tagGuards d t) (hb : b = true) :
    tag ∈ classify_tags d t := by
  subst hb
  exact List.mem_map.mpr
    ⟨(true, tag), List.mem_filter.mpr ⟨hm, rfl⟩, rfl⟩

/-- A label in the tag list comes from a fired guard of the table. -/
theorem guard_of_tag (d t : Str) (tag : Str) (h : tag ∈ classify_tags d t) :
    ∃ b, (b, tag) ∈ tagGuards d t ∧ b = true := by
  rcases List.mem_map.mp h with ⟨p, hp, hsnd⟩
  rcases List.mem_filter.mp hp with ⟨hmem, hfst⟩
  exact ⟨p.1, by rcases p with ⟨b, s⟩; subst hsnd; exact hmem, hfst⟩

/-- C9: for every (domain, text) pair the tag list of `classify_tags`
contains no duplicate labels: it is a sublist of the table's pairwise
distinct label column. -/
theorem c9_tags_nodup : ∀ d t : Str, (classify_tags d t).Nodup := by
  intro d t
  have h1 : List.Sublist (classify_tags d t) ((tagGuards d t).map (fun p => p.2)) :=
    List.Sublist.map _ (List.filter_sublist _)
  exact List.Nodup.sublist h1 (by rw [tagGuards_labels]; decide)

/-- C6: `classify_type` computes exactly the specified procedure — exact
membership in the four closed sets in the order video, social, repository,
store, then suffix membership against the same four sets in the same order,
then the `article` fallback (the source's extra exact check of the article
set never changes this result) — so the result is always one of the five
labels; `"youtube.com"` is `video` and `"sub.github.com"` is `repository`
via the suffix rule. -/
theorem c6_classify_type_spec :
    (∀ dm : Str, classify_type dm =
      (if elemStr dm VIDEO_DOMAINS then "video".data
       else if elemStr dm SOCIAL_DOMAINS then "social".data
       else if elemStr dm REPO_DOMAINS then "repository".data
       else if elemStr dm STORE_DOMAINS then "store".data
       else if suffixAny dm VIDEO_DOMAINS then "video".data
       else if suffixAny dm SOCIAL_DOMAINS then "social".data
       else if suffixAny dm REPO_DOMAINS then "repository".data
       else if suffixAny dm STORE_DOMAINS then "store".data
       else "article".data)) ∧
    (∀ dm : Str, classify_type dm ∈
      ["video".data, "social".data, "repository".data, "store".data,
       "article".data]) ∧
    classify_type "youtube.com".data = "video".data ∧
    classify_type "sub.github.com".data = "repository".data := by
  refine ⟨?_, ?_, by decide, by decide⟩
  · intro dm
    by_cases h5 : dm ∈ ARTICLE_DOMAINS
    · simp only [ARTICLE_DOMAINS, List.mem_cons, List.not_mem_nil, or_false] at h5
      rcases h5 with h | h | h | h | h | h | h | h | h | h | h <;> subst h <;> decide
    · have h5f : elemStr dm ARTICLE_DOMAINS = false := by
        simp [elemStr, h5]
      unfold classify_type
      rw [h5f]
      simp
  · intro dm
    unfold classify_type
    split_ifs <;> decide

/-- Where a resolved candidate link comes from: a heading-anchor href or a
recovered block link. -/
theorem linkOf_spec (inner block l : Str) (h : linkOf inner block = some l) :
    (∃ cap t, aHrefClosed (pyStrip inner) = some (cap, t) ∧ l = pyStrip cap) ∨
      blockLink block = some l := by
  unfold linkOf at h
  rcases hfm : aHrefClosed (pyStrip inner) with _ | ⟨cap, t⟩ <;>
    rw [hfm] at h
  · exact Or.inr h
  · dsimp only at h
    split at h
    · exact Or.inr h
    · exact Or.inl ⟨cap, t, rfl, by cases h; rfl⟩

/-- Everything the parser guarantees about an emitted record: it passed the
self-link filter, its link is nonempty, its description is the block's, and
its link is the resolved per-heading link. -/
theorem resourceFromSeg_spec (inner block : Str) (r : Resource)
    (h : resourceFromSeg inner block = some r) :
    selfLink r.link = false ∧ r.link.isEmpty = false ∧
    r.description = descOf block ∧ linkOf inner block = some r.link := by
  unfold resourceFromSeg at h
  split at h
  · simp at h
  · rcases hl : linkOf inner block with _ | l <;> rw [hl] at h <;> dsimp only at h
    · simp at h
    · split at h
      · simp at h
      · split at h
        · simp at h
        · cases h
          exact ⟨by simp_all, by simp_all, rfl, rfl⟩

/-- A recovered block link passed the shared candidate filter. -/
theorem blockLink_good (b l : Str) (h : blockLink b = some l) :
    goodCandidate l = true :=
  List.find?_some h

/-- A filtered candidate starts with `http`, hence is nonempty. -/
theorem goodCandidate_ne_nil (l : Str) (h : goodCandidate l = true) :
    l.isEmpty = false := by
  rcases l with _ | ⟨c, r⟩
  · simp [goodCandidate] at h
  · rfl

/-- A false self-link test means: if the link mentions the digest host, it
is an upload path. -/
theorem selfLink_false_imp (l : Str) (h : selfLink l = false)
    (hs : containsSub "suvitruf.ru".data l = true) :
    containsSub "wp-content".data l = true := by
  simp [selfLink, hs] at h
  exact h

/-- The three parts of the block-candidate filter. -/
theorem goodCandidate_parts (l : Str) (h : goodCandidate l = true) :
    containsSub "wp-content/uploads".data l = false ∧
    "#".data.isPrefixOf l = false ∧ "http".data.isPrefixOf l = true := by
  simp only [goodCandidate, Bool.and_eq_true, Bool.not_eq_true'] at h
  exact ⟨h.1.1, h.1.2, h.2⟩

/-- C3 counterexample: a heading whose anchor href is the fragment `#x`
yields a candidate whose link does not start with `http`, so the claim that
every candidate link is an absolute HTTP(S) URL fails. -/
theorem c3_counterexample :
    (extract_resources_from_digest
        "<article><h3><a href=\"#x\">T</a></h3></article>".data).map
      (fun r => r.link) = ["#x".data] ∧
    "http".data.isPrefixOf "#x".data = false := by decide

/-- C3 (amended): every candidate passes the self-link filter, and its link
either satisfies the three block-recovery filters (not an image-hosting
path, not a fragment anchor, absolute HTTP) or is taken verbatim from a
closed anchor inside its heading, to which those filters are not applied. -/
theorem c3_amended_link_filters :
    ∀ html : Str, ∀ r ∈ extract_resources_from_digest html,
      selfLink r.link = false ∧
      ((containsSub "wp-content/uploads".data r.link = false ∧
        "#".data.isPrefixOf r.link = false ∧
        "http".data.isPrefixOf r.link = true) ∨
       ∃ s ∈ segsOfDoc html, ∃ cap t,
         aHrefClosed (pyStrip s.inner) = some (cap, t) ∧ r.link = pyStrip cap) := by
  intro html r hr
  unfold extract_resources_from_digest at hr
  rcases List.mem_filterMap.mp hr with ⟨s, hs, hsr⟩
  obtain ⟨hself, _, _, hlink⟩ := resourceFromSeg_spec _ _ _ hsr
  refine ⟨hself, ?_⟩
  rcases linkOf_spec _ _ _ hlink with ⟨cap, t, hfm, hcap⟩ | hbl
  · exact Or.inr ⟨s, hs, cap, t, hfm, hcap⟩
  · exact Or.inl (goodCandidate_parts _ (blockLink_good _ _ hbl))

/-- C3 witness: the amended theorem applied to a concrete document whose
single candidate was recovered from the content block. -/
theorem c3_amended_witness :
    selfLink "http://b.org/p".data = false ∧
    ((containsSub "wp-content/uploads".data "http://b.org/p".data = false ∧
      "#".data.isPrefixOf "http://b.org/p".data = false ∧
      "http".data.isPrefixOf "http://b.org/p".data = true) ∨
     ∃ s ∈ segsOfDoc
         "<article><h3>Head</h3><a href=\"http://b.org/p\">x</a></article>".data,
       ∃ cap t, aHrefClosed (pyStrip s.inner) = some (cap, t) ∧
         "http://b.org/p".data = pyStrip cap) :=
  c3_amended_link_filters
    "<article><h3>Head</h3><a href=\"http://b.org/p\">x</a></article>".data
    ⟨"http://b.org/p".data, "Head".data, "x".data⟩ (by decide)

/-- The description budget: 197 characters plus the three-character marker,
or the whole collapsed text when it fits. -/
theorem descOf_length (b : Str) : (descOf b).length ≤ 200 := by
  unfold descOf
  dsimp only
  split
  · rw [List.length_append, List.length_take]
    have h1 : (['.', '.', '.'] : Str).length = 3 := rfl
    have h2 := Nat.min_le_left 197
      (pyStrip (collapseWs (stripTagsSpace b))).length
    omega
  · next h => omega

/-- C8: every emitted record's description is its content block with markup
replaced by spaces, whitespace collapsed and trimmed, truncated to its
first 197 characters plus the `...` marker exactly when the collapsed text
exceeds 200 characters; the length never exceeds 200. -/
theorem c8_description_budget :
    ∀ html : Str, ∀ r ∈ extract_resources_from_digest html,
      r.description.length ≤ 200 ∧
      ∃ s ∈ segsOfDoc html,
        r.description =
          (if 200 < (pyStrip (collapseWs (stripTagsSpace s.afterZone))).length
           then (pyStrip (collapseWs (stripTagsSpace s.afterZone))).take 197
                  ++ "...".data
           else pyStrip (collapseWs (stripTagsSpace s.afterZone))) := by
  intro html r hr
  unfold extract_resources_from_digest at hr
  rcases List.mem_filterMap.mp hr with ⟨s, hs, hsr⟩
  obtain ⟨_, _, hdesc, _⟩ := resourceFromSeg_spec _ _ _ hsr
  exact ⟨hdesc ▸ descOf_length _, s, hs, by rw [hdesc]; rfl⟩

/-- C8 witness: the description theorem applied to a concrete document. -/
theorem c8_description_budget_witness :
    ("x".data : Str).length ≤ 200 ∧
    ∃ s ∈ segsOfDoc
        "<article><h3>Head</h3><a href=\"http://b.org/p\">x</a></article>".data,
      "x".data =
        (if 200 < (pyStrip (collapseWs (stripTagsSpace s.afterZone))).length
         then (pyStrip (collapseWs (stripTagsSpace s.afterZone))).take 197
                ++ "...".data
         else pyStrip (collapseWs (stripTagsSpace s.afterZone))) :=
  c8_description_budget
    "<article><h3>Head</h3><a href=\"http://b.org/p\">x</a></article>".data
    ⟨"http://b.org/p".data, "Head".data, "x".data⟩ (by decide)

/-- A freshly selected image reference is not yet claimed. -/
theorem firstFresh_fresh (imgs claimed : List Str) (i : Str)
    (h : firstFresh imgs claimed = some i) : i ∉ claimed := by
  have h2 := List.find?_some h
  simp only [Bool.not_eq_true', List.any_eq_false, beq_iff_eq] at h2
  exact fun hm => h2 i hm rfl

/-- Dictionary assignment only produces the new pair or old pairs with a
different key. -/
theorem dictSet_mem (m : List (Str × Str)) (k v : Str) (p : Str × Str)
    (h : p ∈ dictSet m k v) : p = (k, v) ∨ (p ∈ m ∧ p.1 ≠ k) := by
  unfold dictSet at h
  split at h
  · rcases List.mem_map.mp h with ⟨q, hq, hqe⟩
    by_cases hk : (q.1 == k) = true
    · left; rw [if_pos hk] at hqe; exact hqe.symm
    · right
      rw [if_neg hk] at hqe
      subst hqe
      exact ⟨hq, by simpa using hk⟩
  · next hany =>
    rcases List.mem_append.mp h with h1 | h1
    · right
      refine ⟨h1, fun he => hany ?_⟩
      exact List.any_eq_true.mpr ⟨p, h1, by simp [he]⟩
    · left; simpa using h1

/-- Assignment of a fresh value preserves the claim-set invariant: all
values claimed, and distinct keys have distinct values. -/
theorem dictSet_inv (claimed : List Str) (m : List (Str × Str)) (k v : Str)
    (hvals : ∀ p ∈ m, p.2 ∈ claimed)
    (hinj : ∀ p ∈ m, ∀ q ∈ m, p.1 ≠ q.1 → p.2 ≠ q.2)
    (hv : v ∉ claimed) :
    (∀ p ∈ dictSet m k v, p.2 ∈ v :: claimed) ∧
    (∀ p ∈ dictSet m k v, ∀ q ∈ dictSet m k v, p.1 ≠ q.1 → p.2 ≠ q.2) := by
  constructor
  · intro p hp
    rcases dictSet_mem m k v p hp with h | ⟨h, _⟩
    · subst h; exact List.mem_cons_self _ _
    · exact List.mem_cons_of_mem _ (hvals p h)
  · intro p hp q hq hne
    rcases dictSet_mem m k v p hp with h1 | ⟨h1, _⟩ <;>
      rcases dictSet_mem m k v q hq with h2 | ⟨h2, _⟩
    · subst h1; subst h2; exact absurd rfl hne
    · subst h1
      intro he
      apply hv
      have := hvals q h2
      rw [← he] at this
      exact this
    · subst h2
      intro he
      apply hv
      have := hvals p h1
      rw [he] at this
      exact this
    · exact hinj p h1 q h2 hne

/-- The claim-set pass keeps the mapping injective on values. -/
theorem imgMapGo_inj (segs : List Seg) :
    ∀ claimed m,
      (∀ p ∈ m, p.2 ∈ claimed) →
      (∀ p ∈ m, ∀ q ∈ m, p.1 ≠ q.1 → p.2 ≠ q.2) →
      ∀ p ∈ imgMapGo segs claimed m, ∀ q ∈ imgMapGo segs claimed m,
        p.1 ≠ q.1 → p.2 ≠ q.2 := by
  induction segs with
  | nil => intro claimed m _ hinj p hp q hq; exact hinj p hp q hq
  | cons s rest ih =>
    intro claimed m hvals hinj
    rcases hr : imgResolved s with _ | l <;> simp only [imgMapGo, hr]
    · exact ih claimed m hvals hinj
    · rcases hf : firstFresh (imgSrcs s.afterZone) claimed with _ | img <;>
        simp only [hf]
      · rcases hf2 : firstFresh (imgSrcs s.beforeZone) claimed with _ | img2 <;>
          simp only [hf2]
        · exact ih claimed m hvals hinj
        · obtain ⟨hv1, hv2⟩ :=
            dictSet_inv claimed m l img2 hvals hinj (firstFresh_fresh _ _ _ hf2)
          exact ih _ _ hv1 hv2
      · obtain ⟨hv1, hv2⟩ :=
          dictSet_inv claimed m l img hvals hinj (firstFresh_fresh _ _ _ hf)
        exact ih _ _ hv1 hv2

/-- C5: in the mapping of `extract_image_map` no image reference is the
value of two distinct links — once claimed, a reference is skipped by every
later after-zone and before-zone scan. -/
theorem c5_image_map_injective :
    ∀ html : Str, ∀ p ∈ extract_image_map html, ∀ q ∈ extract_image_map html,
      p.1 ≠ q.1 → p.2 ≠ q.2 := by
  intro html p hp q hq
  unfold extract_image_map at hp hq
  exact imgMapGo_inj _ [] []
    (fun p hp => absurd hp (List.not_mem_nil p))
    (fun p hp => absurd hp (List.not_mem_nil p)) p hp q hq

/-- C5 witness: the injectivity theorem at a concrete two-heading document
with two images. -/
theorem c5_image_map_injective_witness :
    ("http://a.com/1".data, "/wp-content/uploads/x.png".data).2 ≠
      ("http://b.com/2".data, "/wp-content/uploads/y.png".data).2 :=
  c5_image_map_injective
    "<article><h3><a href=\"http://a.com/1\">A</a></h3><p><img src=\"/wp-content/uploads/x.png\"></p><h3><a href=\"http://b.com/2\">B</a></h3><p><img src=\"/wp-content/uploads/y.png\"></p></article>".data
    _ (by decide) _ (by decide) (by decide)

/-- Every pair of the mapping comes from some heading's resolved link. -/
theorem imgMapGo_keys (segs : List Seg) :
    ∀ claimed m p, p ∈ imgMapGo segs claimed m →
      p ∈ m ∨ ∃ s ∈ segs, imgResolved s = some p.1 := by
  induction segs with
  | nil => intro claimed m p hp; exact Or.inl hp
  | cons s rest ih =>
    intro claimed m p hp
    rcases hr : imgResolved s with _ | l <;> simp only [imgMapGo, hr] at hp
    · rcases ih _ _ _ hp with h | ⟨s2, hs2, h2⟩
      · exact Or.inl h
      · exact Or.inr ⟨s2, List.mem_cons_of_mem _ hs2, h2⟩
    · rcases hf : firstFresh (imgSrcs s.afterZone) claimed with _ | img <;>
        simp only [hf] at hp
      · rcases hf2 : firstFresh (imgSrcs s.beforeZone) claimed with _ | img2 <;>
          simp only [hf2] at hp
        · rcases ih _ _ _ hp with h | ⟨s2, hs2, h2⟩
          · exact Or.inl h
          · exact Or.inr ⟨s2, List.mem_cons_of_mem _ hs2, h2⟩
        · rcases ih _ _ _ hp with h | ⟨s2, hs2, h2⟩
          · rcases dictSet_mem _ _ _ _ h with he | ⟨hm, _⟩
            · subst he; exact Or.inr ⟨s, List.mem_cons_self _ _, hr⟩
            · exact Or.inl hm
          · exact Or.inr ⟨s2, List.mem_cons_of_mem _ hs2, h2⟩
      · rcases ih _ _ _ hp with h | ⟨s2, hs2, h2⟩
        · rcases dictSet_mem _ _ _ _ h with he | ⟨hm, _⟩
          · subst he; exact Or.inr ⟨s, List.mem_cons_self _ _, hr⟩
          · exact Or.inl hm
        · exact Or.inr ⟨s2, List.mem_cons_of_mem _ hs2, h2⟩

/-- What a resolved image-map link satisfied: the guards of the heuristic. -/
theorem imgResolved_spec (s : Seg) (l : Str) (h : imgResolved s = some l) :
    selfLink l = false ∧ l.isEmpty = false ∧
    imgSegLink s.inner s.afterZone = some l := by
  unfold imgResolved at h
  rcases hsl : imgSegLink s.inner s.afterZone with _ | l0 <;> rw [hsl] at h <;>
    dsimp only at h
  · simp at h
  · split at h
    · simp at h
    · split at h
      · simp at h
      · cases h
        exact ⟨by simp_all, by simp_all, rfl⟩

/-- When there is no open anchor there is no closed anchor either: the
closed pattern's per-position attempt factors through the open one. -/
theorem aHrefOpen_none_closed (cs : Str) (h : aHrefOpen cs = none) :
    aHrefClosed cs = none := by
  induction cs with
  | nil => rfl
  | cons c r ih =>
    unfold aHrefOpen at h
    unfold aHrefClosed
    rcases ho : aOpenAt (c :: r) with _ | ⟨cap, rest⟩ <;> rw [ho] at h <;>
      dsimp only at h
    · have hc : aClosedAt (c :: r) = none := by
        unfold aClosedAt; rw [ho]
      rw [hc]
      exact ih h
    · simp at h

/-- A well-formed heading whose image-map entry resolved also yields a
parser candidate with the same link. -/
theorem goodSeg_resource (s : Seg) (l : Str)
    (hg : goodSeg s.inner s.afterZone = true)
    (hr : imgResolved s = some l) :
    ∃ r, resourceFromSeg s.inner s.afterZone = some r ∧ r.link = l := by
  obtain ⟨hself, hne, hsl⟩ := imgResolved_spec s l hr
  unfold goodSeg at hg
  dsimp only at hg
  unfold imgSegLink at hsl
  rcases ho : aHrefOpen (pyStrip s.inner) with _ | cap <;> rw [ho] at hg hsl <;>
    dsimp only at hg hsl
  · -- block-recovery case
    have hcl : aHrefClosed (pyStrip s.inner) = none := aHrefOpen_none_closed _ ho
    have htitle : (unescape (pyStrip (stripTags (pyStrip s.inner)))).isEmpty = false := by
      rw [Bool.or_eq_true] at hg
      rcases hg with h1 | h1
      · rw [Bool.not_eq_true'] at h1
        exact h1
      · rw [hsl] at h1
        simp at h1
    refine ⟨⟨l, titleOf s.inner, descOf s.afterZone⟩, ?_, rfl⟩
    have ht : (titleOf s.inner).isEmpty = false := by
      unfold titleOf; rw [hcl]; exact htitle
    have hlk : linkOf s.inner s.afterZone = some l := by
      unfold linkOf; rw [hcl]; exact hsl
    simp [resourceFromSeg, ht, hlk, hne, hself]
  · -- heading-anchor case
    cases hsl
    rcases hc : aHrefClosed (pyStrip s.inner) with _ | ⟨cap2, t⟩ <;>
      rw [hc] at hg <;> dsimp only at hg
    · simp at hg
    · rw [Bool.and_eq_true] at hg
      obtain ⟨hcap, htne⟩ := hg
      have hcc : cap2 = cap := by simpa using hcap
      subst hcc
      refine ⟨⟨pyStrip cap2, titleOf s.inner, descOf s.afterZone⟩, ?_, rfl⟩
      have ht : (titleOf s.inner).isEmpty = false := by
        unfold titleOf; rw [hc]; simpa using htne
      have hlk : linkOf s.inner s.afterZone = some (pyStrip cap2) := by
        unfold linkOf; rw [hc]; dsimp only; rw [hne]; simp
      simp [resourceFromSeg, ht, hlk, hne, hself]

/-- C2 counterexample: a heading with an empty anchor text — the parser
drops it for its empty title, but the image heuristic still assigns the
image to its href, so that key is not any candidate's link. -/
theorem c2_counterexample :
    extract_resources_from_digest
        "<article><h3><a href=\"http://x.com\"></a></h3><img src=\"http://s/wp-content/uploads/a.png\"></article>".data
      = [] ∧
    ("http://x.com".data, "http://s/wp-content/uploads/a.png".data) ∈
      extract_image_map
        "<article><h3><a href=\"http://x.com\"></a></h3><img src=\"http://s/wp-content/uploads/a.png\"></article>".data := by
  constructor
  · decide
  · decide

/-- C2 (amended): for documents whose headings are well formed — every
heading anchor is closed inside the heading with a nonempty stripped title,
and every anchorless heading has a nonempty title or no recoverable block
link — every key of the image mapping is the link of some parser
candidate. -/
theorem c2_amended_keys_are_candidates :
    ∀ html : Str,
      (∀ s ∈ segsOfDoc html, goodSeg s.inner s.afterZone = true) →
      ∀ k v : Str, (k, v) ∈ extract_image_map html →
        ∃ r ∈ extract_resources_from_digest html, r.link = k := by
  intro html hgood k v hkv
  unfold extract_image_map at hkv
  rcases imgMapGo_keys _ _ _ _ hkv with h | ⟨s, hs, hres⟩
  · exact absurd h (List.not_mem_nil _)
  · obtain ⟨r, hr, hrl⟩ := goodSeg_resource s k (hgood s hs) hres
    refine ⟨r, ?_, hrl⟩
    unfold extract_resources_from_digest
    exact List.mem_filterMap.mpr ⟨s, hs, hr⟩

/-- C2 witness: the amended theorem at a concrete well-formed document. -/
theorem c2_amended_witness :
    ∃ r ∈ extract_resources_from_digest
        "<article><h3><a href=\"http://a.com/x\">T</a></h3><img src=\"http://s/wp-content/uploads/i.png\"></article>".data,
      r.link = "http://a.com/x".data :=
  c2_amended_keys_are_candidates
    "<article><h3><a href=\"http://a.com/x\">T</a></h3><img src=\"http://s/wp-content/uploads/i.png\"></article>".data
    (by decide) "http://a.com/x".data "http://s/wp-content/uploads/i.png".data
    (by decide)

/-- C10: the self-link filter is a substring test on the whole URL, in the
parser and in the image heuristic alike; a link whose path merely mentions
the digest host is dropped even on a foreign domain. -/
theorem c10_selflink_substring :
    (∀ html : Str, ∀ r ∈ extract_resources_from_digest html,
      containsSub "suvitruf.ru".data r.link = true →
      containsSub "wp-content".data r.link = true) ∧
    (∀ html k v : Str, (k, v) ∈ extract_image_map html →
      containsSub "suvitruf.ru".data k = true →
      containsSub "wp-content".data k = true) ∧
    extract_resources_from_digest
        "<article><h3><a href=\"https://example.com/suvitruf.ru-review\">T</a></h3></article>".data
      = [] := by
  refine ⟨?_, ?_, by decide⟩
  · intro html r hr hs
    unfold extract_resources_from_digest at hr
    rcases List.mem_filterMap.mp hr with ⟨s, _, hsr⟩
    obtain ⟨hself, _, _, _⟩ := resourceFromSeg_spec _ _ _ hsr
    exact selfLink_false_imp _ hself hs
  · intro html k v hkv hs
    unfold extract_image_map at hkv
    rcases imgMapGo_keys _ _ _ _ hkv with h | ⟨s, _, hres⟩
    · exact absurd h (List.not_mem_nil _)
    · obtain ⟨hself, _, _⟩ := imgResolved_spec _ _ hres
      exact selfLink_false_imp _ hself hs

/-- C10 witness: a record whose link contains both substrings survives, and
the theorem yields the `wp-content` conclusion at it. -/
theorem c10_selflink_witness :
    containsSub "wp-content".data "https://suvitruf.ru/wp-content/x".data = true :=
  c10_selflink_substring.1
    "<article><h3><a href=\"https://suvitruf.ru/wp-content/x\">T</a></h3></article>".data
    ⟨"https://suvitruf.ru/wp-content/x".data, "T".data, "".data⟩
    (by decide) (by decide)

/-- Completeness of the word-boundary scanner: a standalone occurrence with
the stated boundary conditions is found, whatever prefix has already been
consumed. -/
theorem wordSearchAux_complete (w : Str) :
    ∀ pre post prev,
      (pre = [] →
        (match prev with
         | none => True
         | some p => isWordChar p = false)) →
      (∀ pr p0, pre = pr ++ [p0] → isWordChar p0 = false) →
      (post = [] ∨ ∃ c cs2, post = c :: cs2 ∧ isWordChar c = false) →
      wordSearchAux w prev (pre ++ (w ++ post)) = true := by
  intro pre
  induction pre with
  | nil =>
    intro post prev hprev _ hpost
    have hAt : wordAt w prev (w ++ post) = true := by
      unfold wordAt
      refine (Bool.and_eq_true _ _).mpr ⟨(Bool.and_eq_true _ _).mpr ⟨?_, ?_⟩, ?_⟩
      · exact List.isPrefixOf_iff_prefix.mpr ⟨post, rfl⟩
      · rcases prev with _ | p
        · rfl
        · have := hprev rfl
          simp only at this
          simp [this]
      · rw [List.drop_left]
        rcases hpost with h | ⟨c, cs2, hc, hw⟩
        · simp [h]
        · simp [hc, hw]
    rcases hw : w ++ post with _ | ⟨c, r⟩
    · simpa [wordSearchAux, hw] using hAt
    · rw [hw] at hAt
      unfold wordSearchAux
      simp only [List.nil_append]
      rw [hAt]
      rfl
  | cons p pre2 ih =>
    intro post prev _ hlast hpost
    show wordSearchAux w prev (p :: (pre2 ++ (w ++ post))) = true
    unfold wordSearchAux
    rw [Bool.or_eq_true]
    refine Or.inr (ih post (some p) ?_ ?_ hpost)
    · intro hpre2
      subst hpre2
      exact hlast [] p rfl
    · intro pr p0 hsplit
      exact hlast (p :: pr) p0 (by rw [hsplit]; rfl)

/-- C7: tag rules combine domain and keyword checks with a domain
short-circuit, and short tokens use word boundaries: any text with a
standalone `AI` token gets tag `ai`; without any of the rule's four
triggers the tag is absent — in particular a text containing `painting`
does not get it; `itch.io` and its subdomains get `free` regardless of
text; `sub.github.com` gets `opensource` via the suffix rule regardless of
text. -/
theorem c7_tag_rules :
    (∀ dm t : Str, WordOcc "AI".data t → "ai".data ∈ classify_tags dm t) ∧
    (∀ dm t : Str, aiGuard t = false → "ai".data ∉ classify_tags dm t) ∧
    (containsSub "painting".data "Watercolor painting tips".data = true ∧
      "ai".data ∉ classify_tags "example.com".data "Watercolor painting tips".data) ∧
    (∀ dm t : Str, (dm = "itch.io".data ∨ endsWithStr ".itch.io".data dm = true) →
      "free".data ∈ classify_tags dm t) ∧
    (∀ t : Str, "opensource".data ∈ classify_tags "sub.github.com".data t) := by
  refine ⟨?_, ?_, by decide, ?_, ?_⟩
  · intro dm t hocc
    obtain ⟨pre, post, hsplit, hpre, hpost⟩ := hocc
    subst hsplit
    have hs : wordSearch "AI".data false (pre ++ ("AI".data ++ post)) = true := by
      unfold wordSearch
      refine wordSearchAux_complete _ pre post none (fun _ => trivial) ?_ hpost
      intro pr p0 hdec
      rcases hpre with h0 | ⟨q0, qr, hq, hw⟩
      · subst h0
        exact absurd hdec (by simp)
      · have heq : pr ++ [p0] = qr ++ [q0] := hdec.symm.trans hq
        have := (List.append_inj' heq rfl).2
        cases this
        exact hw
    have hg : aiGuard (pre ++ ("AI".data ++ post)) = true := by
      unfold aiGuard
      rw [hs]
      rfl
    exact tag_of_guard _ _ _ _ (by simp [tagGuards]) hg
  · intro dm t hg hmem
    obtain ⟨b, hb, hbt⟩ := guard_of_tag _ _ _ hmem
    subst hbt
    simp only [tagGuards, List.mem_cons, List.not_mem_nil, or_false] at hb
    rcases hb with h|h|h|h|h|h|h|h|h|h|h|h|h|h|h|h|h|h|h <;>
      obtain ⟨h1, h2⟩ := Prod.mk.inj h <;>
      first
      | exact absurd h2 (by decide)
      | (rw [hg] at h1; exact absurd h1 (by decide))
  · intro dm t hd
    have hfg : freeGuard dm t = true := by
      rcases hd with h | h
      · subst h; simp [freeGuard]
      · simp [freeGuard, h]
    exact tag_of_guard _ _ _ _ (by simp [tagGuards]) hfg
  · intro t
    have hog : opensourceGuard "sub.github.com".data t = true := by
      have he : endsWithStr ".github.com".data "sub.github.com".data = true := by
        decide
      simp [opensourceGuard, he]
    exact tag_of_guard _ _ _ _ (by simp [tagGuards]) hog

/-- C7 witness: each universally quantified part of the tag-rule theorem
applied at a concrete input. -/
theorem c7_tag_rules_witness :
    "ai".data ∈ classify_tags "a.com".data "AI tools".data ∧
    "ai".data ∉ classify_tags "a.com".data "painting".data ∧
    "free".data ∈ classify_tags "itch.io".data [] ∧
    "opensource".data ∈ classify_tags "sub.github.com".data [] :=
  ⟨c7_tag_rules.1 "a.com".data "AI tools".data
      ⟨[], ' ' :: "tools".data, by decide, Or.inl rfl,
        Or.inr ⟨' ', "tools".data, rfl, by decide⟩⟩,
    c7_tag_rules.2.1 "a.com".data "painting".data (by decide),
    c7_tag_rules.2.2.2.1 "itch.io".data [] (Or.inl rfl),
    c7_tag_rules.2.2.2.2 []⟩

/-- Characterization of the fixed-width digit scanner: it succeeds exactly
on a prefix of `n` digits, producing their accumulated value. -/
theorem digitsNAux_iff (n : Nat) :
    ∀ acc cs v r, digitsNAux acc n cs = some (v, r) ↔
      ∃ ds : Str, cs = ds ++ r ∧ AllDigits ds ∧ ds.length = n ∧ v = valFrom acc ds := by
  induction n with
  | zero =>
    intro acc cs v r
    constructor
    · intro h
      unfold digitsNAux at h
      cases h
      exact ⟨[], rfl, fun c hc => absurd hc (List.not_mem_nil c), rfl, rfl⟩
    · rintro ⟨ds, hcs, _, hlen, hval⟩
      have : ds = [] := List.eq_nil_of_length_eq_zero hlen
      subst this
      subst hcs
      subst hval
      rfl
  | succ n ih =>
    intro acc cs v r
    constructor
    · intro h
      rcases cs with _ | ⟨c, cs2⟩
      · exact absurd h (by unfold digitsNAux; simp)
      · unfold digitsNAux at h
        split at h
        · rcases (ih _ _ _ _).mp h with ⟨ds2, hcs, hdig, hlen, hval⟩
          refine ⟨c :: ds2, by rw [hcs]; rfl, ?_, by simp [hlen], ?_⟩
          · intro x hx
            rcases List.mem_cons.mp hx with hx | hx
            · subst hx; assumption
            · exact hdig x hx
          · rw [hval]; rfl
        · exact absurd h (by simp)
    · rintro ⟨ds, hcs, hdig, hlen, hval⟩
      rcases ds with _ | ⟨d0, ds2⟩
      · exact absurd hlen (by simp)
      · have hd0 : d0.isDigit = true := hdig d0 (List.mem_cons_self _ _)
        subst hcs
        show digitsNAux acc (n + 1) (d0 :: (ds2 ++ r)) = some (v, r)
        unfold digitsNAux
        rw [if_pos hd0]
        refine (ih _ _ _ _).mpr ⟨ds2, rfl, ?_, by simpa using hlen, by rw [hval]; rfl⟩
        exact fun x hx => hdig x (List.mem_cons_of_mem _ hx)

/-- `digitsN` in terms of the digit-group predicate. -/
theorem digitsN_iff (n : Nat) (cs : Str) (v : Nat) (r : Str) :
    digitsN n cs = some (v, r) ↔
      ∃ ds : Str, cs = ds ++ r ∧ AllDigits ds ∧ ds.length = n ∧ digitsVal ds = v := by
  unfold digitsN digitsVal
  rw [digitsNAux_iff]
  constructor
  · rintro ⟨ds, h1, h2, h3, h4⟩; exact ⟨ds, h1, h2, h3, h4.symm⟩
  · rintro ⟨ds, h1, h2, h3, h4⟩; exact ⟨ds, h1, h2, h3, h4.symm⟩

/-- Value of a one-digit group. -/
theorem digitsVal_one (a : Char) : digitsVal [a] = digitVal a := by
  simp [digitsVal, valFrom]

/-- Value of a two-digit group. -/
theorem digitsVal_two (a b : Char) :
    digitsVal [a, b] = 10 * digitVal a + digitVal b := by
  simp [digitsVal, valFrom, List.foldl]

/-- A singleton digit group. -/
theorem allDigits_one (a : Char) (ha : a.isDigit = true) : AllDigits [a] := by
  intro x hx
  rcases List.mem_cons.mp hx with h | h
  · subst h; exact ha
  · exact absurd h (List.not_mem_nil x)

/-- A two-character digit group. -/
theorem allDigits_two (a b : Char) (ha : a.isDigit = true)
    (hb : b.isDigit = true) : AllDigits [a, b] := by
  intro x hx
  rcases List.mem_cons.mp hx with h | h
  · subst h; exact ha
  · rcases List.mem_cons.mp h with h2 | h2
    · subst h2; exact hb
    · exact absurd h2 (List.not_mem_nil x)

/-- Destructor for singleton lists. -/
theorem len_one (ds : Str) (h : ds.length = 1) : ∃ a, ds = [a] := by
  rcases ds with _ | ⟨x, _ | ⟨y, z⟩⟩
  · simp at h
  · exact ⟨x, rfl⟩
  · simp at h

/-- Destructor for two-element lists. -/
theorem len_two (ds : Str) (h : ds.length = 2) : ∃ a b, ds = [a, b] := by
  rcases ds with _ | ⟨x, _ | ⟨y, _ | ⟨z, w⟩⟩⟩
  · simp at h
  · simp at h
  · exact ⟨x, y, rfl⟩
  · simp at h

/-- Destructor for four-element lists. -/
theorem len_four (ds : Str) (h : ds.length = 4) : ∃ a b c d, ds = [a, b, c, d] := by
  rcases ds with _ | ⟨x1, _ | ⟨x2, _ | ⟨x3, _ | ⟨x4, _ | ⟨x5, z⟩⟩⟩⟩⟩
  · simp at h
  · simp at h
  · simp at h
  · simp at h
  · exact ⟨x1, x2, x3, x4, rfl⟩
  · simp at h

/-- Characterization of the `(\d{1,2})sep` scanner. -/
theorem d12sep_iff (sep : Char) (hsep : sep.isDigit = false) (cs : Str)
    (v : Nat) (r : Str) :
    d12sep sep cs = some (v, r) ↔
      ∃ ds : Str, cs = ds ++ sep :: r ∧ Dig12 ds v := by
  constructor
  · intro h
    rcases cs with _ | ⟨a, _ | ⟨b, rest⟩⟩
    · simp [d12sep] at h
    · simp [d12sep] at h
    · unfold d12sep at h
      try dsimp only at h
      by_cases ha : a.isDigit = true
      · rw [if_pos ha] at h
        by_cases hb : b.isDigit = true
        · rw [if_pos hb] at h
          rcases rest with _ | ⟨c, r2⟩
          · simp at h
          · dsimp only at h
            by_cases hc : c = sep
            · rw [if_pos hc] at h
              cases h
              subst hc
              exact ⟨[a, b], rfl,
                allDigits_two a b ha hb, Or.inr rfl, digitsVal_two a b⟩
            · rw [if_neg hc] at h
              simp at h
        · rw [if_neg hb] at h
          by_cases hb2 : b = sep
          · rw [if_pos hb2] at h
            cases h
            subst hb2
            exact ⟨[a], rfl, allDigits_one a ha, Or.inl rfl, digitsVal_one a⟩
          · rw [if_neg hb2] at h
            simp at h
      · rw [if_neg ha] at h
        simp at h
  · rintro ⟨ds, hcs, hdig, hlen, hval⟩
    rcases hlen with h1 | h2
    · obtain ⟨d0, hds⟩ := len_one ds h1
      subst hds
      subst hcs
      have hd0 : d0.isDigit = true := hdig _ (by simp)
      show d12sep sep (d0 :: sep :: r) = some (v, r)
      unfold d12sep
      dsimp only
      rw [if_pos hd0, if_neg (by simp [hsep]), if_pos rfl, ← hval, digitsVal_one]
    · obtain ⟨d0, d1, hds⟩ := len_two ds h2
      subst hds
      subst hcs
      have hd0 : d0.isDigit = true := hdig _ (by simp)
      have hd1 : d1.isDigit = true := hdig _ (by simp)
      show d12sep sep (d0 :: d1 :: sep :: r) = some (v, r)
      unfold d12sep
      dsimp only
      rw [if_pos hd0, if_pos hd1]
      try dsimp only
      rw [if_pos rfl, ← hval, digitsVal_two]

/-- Characterization of the trailing `(\d{1,2})` group under `re.match`:
greedy, so a one-digit parse cannot stop in front of another digit. -/
theorem d12end_iff (cs : Str) (v : Nat) :
    d12end cs = some v ↔
      ∃ ds rest : Str, cs = ds ++ rest ∧ Dig12 ds v ∧
        (ds.length = 2 ∨ NoDigitHead rest) := by
  constructor
  · intro h
    rcases cs with _ | ⟨a, _ | ⟨b, rest2⟩⟩
    · simp [d12end] at h
    · unfold d12end at h
      try dsimp only at h
      by_cases ha : a.isDigit = true
      · rw [if_pos ha] at h
        cases h
        exact ⟨[a], [], rfl,
          ⟨allDigits_one a ha, Or.inl rfl, digitsVal_one a⟩, Or.inr trivial⟩
      · rw [if_neg ha] at h
        simp at h
    · unfold d12end at h
      try dsimp only at h
      by_cases ha : a.isDigit = true
      · rw [if_pos ha] at h
        by_cases hb : b.isDigit = true
        · rw [if_pos hb] at h
          cases h
          exact ⟨[a, b], rest2, rfl,
            ⟨allDigits_two a b ha hb, Or.inr rfl, digitsVal_two a b⟩, Or.inl rfl⟩
        · rw [if_neg hb] at h
          cases h
          refine ⟨[a], b :: rest2, rfl,
            ⟨allDigits_one a ha, Or.inl rfl, digitsVal_one a⟩, Or.inr ?_⟩
          show b.isDigit = false
          exact Bool.not_eq_true _ ▸ (by simpa using hb)
      · rw [if_neg ha] at h
        simp at h
  · rintro ⟨ds, rest, hcs, ⟨hdig, hlen, hval⟩, hmax⟩
    rcases hlen with h1 | h2
    · obtain ⟨d0, hds⟩ := len_one ds h1
      subst hds
      subst hcs
      have hd0 : d0.isDigit = true := hdig _ (by simp)
      rcases hmax with hm | hm
      · simp at hm
      · rcases rest with _ | ⟨c, r2⟩
        · show d12end [d0] = some v
          unfold d12end
          dsimp only
          rw [if_pos hd0, ← hval, digitsVal_one]
        · have hc : c.isDigit = false := hm
          show d12end (d0 :: c :: r2) = some v
          unfold d12end
          dsimp only
          rw [if_pos hd0, if_neg (by simp [hc]), ← hval, digitsVal_one]
    · obtain ⟨d0, d1, hds⟩ := len_two ds h2
      subst hds
      subst hcs
      have hd0 : d0.isDigit = true := hdig _ (by simp)
      have hd1 : d1.isDigit = true := hdig _ (by simp)
      show d12end (d0 :: d1 :: (rest)) = some v
      unfold d12end
      dsimp only
      rw [if_pos hd0, if_pos hd1, ← hval, digitsVal_two]

/-- The ISO matcher accepts exactly the year-first dash shape. -/
theorem matchISO_iff (cs : Str) (y m d : Nat) :
    matchISO cs = some (y, m, d) ↔ SpecISO cs y m d := by
  constructor
  · intro h
    unfold matchISO at h
    rcases hd4 : digitsN 4 cs with _ | ⟨y2, r1⟩ <;> rw [hd4] at h
    · simp at h
    · rcases r1 with _ | ⟨c1, r2⟩
      · simp at h
      · dsimp only at h
        by_cases hc : c1 = '-'
        · rw [if_pos hc] at h
          subst hc
          rcases hm : d12sep '-' r2 with _ | ⟨m2, r3⟩ <;> rw [hm] at h <;>
            dsimp only at h
          · simp at h
          · rcases he : d12end r3 with _ | d2 <;> rw [he] at h <;> dsimp only at h
            · simp at h
            · obtain ⟨hy, hmm2, hd2⟩ : y2 = y ∧ m2 = m ∧ d2 = d := by
                have h2 := Option.some.inj h
                exact ⟨congrArg Prod.fst h2,
                  congrArg Prod.fst (congrArg Prod.snd h2),
                  congrArg Prod.snd (congrArg Prod.snd h2)⟩
              subst hy; subst hmm2; subst hd2
              obtain ⟨ys, hcs, hdy, hly, hvy⟩ := (digitsN_iff _ _ _ _).mp hd4
              obtain ⟨ms, hr2, hm12⟩ :=
                (d12sep_iff '-' (by decide) _ _ _).mp hm
              obtain ⟨ds, rest, hr3, hd12, hmax⟩ := (d12end_iff _ _).mp he
              refine ⟨ys, ms, ds, rest, ?_, ⟨hdy, hly, hvy⟩, hm12, hd12, hmax⟩
              rw [hcs, hr2, hr3]
        · rw [if_neg hc] at h
          simp at h
  · rintro ⟨ys, ms, ds, rest, hcs, ⟨hy1, hy2, hy3⟩, hm12, hd12, hmax⟩
    have h4 : digitsN 4 cs = some (y, '-' :: (ms ++ '-' :: (ds ++ rest))) :=
      (digitsN_iff _ _ _ _).mpr ⟨ys, hcs, hy1, hy2, hy3⟩
    unfold matchISO
    rw [h4]
    dsimp only
    rw [if_pos rfl]
    rw [(d12sep_iff '-' (by decide) _ _ _).mpr ⟨ms, rfl, hm12⟩]
    dsimp only
    rw [(d12end_iff _ _).mpr ⟨ds, rest, rfl, hd12, hmax⟩]

/-- The US matcher accepts exactly the month-first slash shape. -/
theorem matchUS_iff (cs : Str) (m d y : Nat) :
    matchUS cs = some (m, d, y) ↔ SpecUS cs m d y := by
  constructor
  · intro h
    unfold matchUS at h
    rcases h1 : d12sep '/' cs with _ | ⟨m2, r1⟩ <;> rw [h1] at h <;> dsimp only at h
    · simp at h
    · rcases h2 : d12sep '/' r1 with _ | ⟨d2, r2⟩ <;> rw [h2] at h <;> dsimp only at h
      · simp at h
      · rcases h3 : digitsN 4 r2 with _ | ⟨y2, r3⟩ <;> rw [h3] at h <;> dsimp only at h
        · simp at h
        · obtain ⟨hm2, hd2, hy2⟩ : m2 = m ∧ d2 = d ∧ y2 = y := by
            have hinj := Option.some.inj h
            exact ⟨congrArg Prod.fst hinj,
              congrArg Prod.fst (congrArg Prod.snd hinj),
              congrArg Prod.snd (congrArg Prod.snd hinj)⟩
          subst hm2; subst hd2; subst hy2
          obtain ⟨ms, hcs, hm12⟩ := (d12sep_iff '/' (by decide) _ _ _).mp h1
          obtain ⟨ds, hr1, hd12⟩ := (d12sep_iff '/' (by decide) _ _ _).mp h2
          obtain ⟨ys, hr2, hyd, hyl, hyv⟩ := (digitsN_iff _ _ _ _).mp h3
          exact ⟨ms, ds, ys, r3, by rw [hcs, hr1, hr2], hm12, hd12, hyd, hyl, hyv⟩
  · rintro ⟨ms, ds, ys, rest, hcs, hm12, hd12, hy4⟩
    unfold matchUS
    rw [(d12sep_iff '/' (by decide) _ _ _).mpr ⟨ms, hcs, hm12⟩]
    dsimp only
    rw [(d12sep_iff '/' (by decide) _ _ _).mpr ⟨ds, rfl, hd12⟩]
    dsimp only
    rw [(digitsN_iff _ _ _ _).mpr ⟨ys, rfl, hy4.1, hy4.2.1, hy4.2.2⟩]

/-- The European matcher accepts exactly the day-first dot shape. -/
theorem matchEU_iff (cs : Str) (d m y : Nat) :
    matchEU cs = some (d, m, y) ↔ SpecEU cs d m y := by
  constructor
  · intro h
    unfold matchEU at h
    rcases h1 : d12sep '.' cs with _ | ⟨d2, r1⟩ <;> rw [h1] at h <;> dsimp only at h
    · simp at h
    · rcases h2 : d12sep '.' r1 with _ | ⟨m2, r2⟩ <;> rw [h2] at h <;> dsimp only at h
      · simp at h
      · rcases h3 : digitsN 4 r2 with _ | ⟨y2, r3⟩ <;> rw [h3] at h <;> dsimp only at h
        · simp at h
        · obtain ⟨hd2, hm2, hy2⟩ : d2 = d ∧ m2 = m ∧ y2 = y := by
            have hinj := Option.some.inj h
            exact ⟨congrArg Prod.fst hinj,
              congrArg Prod.fst (congrArg Prod.snd hinj),
              congrArg Prod.snd (congrArg Prod.snd hinj)⟩
          subst hd2; subst hm2; subst hy2
          obtain ⟨ds, hcs, hd12⟩ := (d12sep_iff '.' (by decide) _ _ _).mp h1
          obtain ⟨ms, hr1, hm12⟩ := (d12sep_iff '.' (by decide) _ _ _).mp h2
          obtain ⟨ys, hr2, hyd, hyl, hyv⟩ := (digitsN_iff _ _ _ _).mp h3
          exact ⟨ds, ms, ys, r3, by rw [hcs, hr1, hr2], hd12, hm12, hyd, hyl, hyv⟩
  · rintro ⟨ds, ms, ys, rest, hcs, hd12, hm12, hy4⟩
    unfold matchEU
    rw [(d12sep_iff '.' (by decide) _ _ _).mpr ⟨ds, hcs, hd12⟩]
    dsimp only
    rw [(d12sep_iff '.' (by decide) _ _ _).mpr ⟨ms, rfl, hm12⟩]
    dsimp only
    rw [(digitsN_iff _ _ _ _).mpr ⟨ys, rfl, hy4.1, hy4.2.1, hy4.2.2⟩]

/-- The ISO and US shapes cannot both match: the dash shape has digits in
positions 1–3 where the slash shape puts its separator. -/
theorem not_iso_us (cs : Str) (y m d m2 d2 y2 : Nat)
    (h1 : SpecISO cs y m d) (h2 : SpecUS cs m2 d2 y2) : False := by
  obtain ⟨ys, ms, ds, rest, hcs1, ⟨hyd, hyl, _⟩, _, _, _⟩ := h1
  obtain ⟨ms2, ds2, ys2, rest2, hcs2, ⟨hmd, hml, _⟩, _, _⟩ := h2
  obtain ⟨a, b, c, e, hys⟩ := len_four ys hyl
  subst hys
  have heq := hcs1.symm.trans hcs2
  rcases hml with hl | hl
  · obtain ⟨p, hms⟩ := len_one ms2 hl
    subst hms
    simp only [List.cons_append, List.nil_append, List.cons.injEq] at heq
    have hb : b = '/' := heq.2.1
    have hdig : b.isDigit = true := hyd b (by simp)
    rw [hb] at hdig
    exact absurd hdig (by decide)
  · obtain ⟨p, q, hms⟩ := len_two ms2 hl
    subst hms
    simp only [List.cons_append, List.nil_append, List.cons.injEq] at heq
    have hc : c = '/' := heq.2.2.1
    have hdig : c.isDigit = true := hyd c (by simp)
    rw [hc] at hdig
    exact absurd hdig (by decide)

/-- The ISO and European shapes cannot both match. -/
theorem not_iso_eu (cs : Str) (y m d d2 m2 y2 : Nat)
    (h1 : SpecISO cs y m d) (h2 : SpecEU cs d2 m2 y2) : False := by
  obtain ⟨ys, ms, ds, rest, hcs1, ⟨hyd, hyl, _⟩, _, _, _⟩ := h1
  obtain ⟨ds2, ms2, ys2, rest2, hcs2, ⟨hdd, hdl, _⟩, _, _⟩ := h2
  obtain ⟨a, b, c, e, hys⟩ := len_four ys hyl
  subst hys
  have heq := hcs1.symm.trans hcs2
  rcases hdl with hl | hl
  · obtain ⟨p, hds⟩ := len_one ds2 hl
    subst hds
    simp only [List.cons_append, List.nil_append, List.cons.injEq] at heq
    have hb : b = '.' := heq.2.1
    have hdig : b.isDigit = true := hyd b (by simp)
    rw [hb] at hdig
    exact absurd hdig (by decide)
  · obtain ⟨p, q, hds⟩ := len_two ds2 hl
    subst hds
    simp only [List.cons_append, List.nil_append, List.cons.injEq] at heq
    have hc : c = '.' := heq.2.2.1
    have hdig : c.isDigit = true := hyd c (by simp)
    rw [hc] at hdig
    exact absurd hdig (by decide)

/-- The US and European shapes cannot both match. -/
theorem not_us_eu (cs : Str) (m d y d2 m2 y2 : Nat)
    (h1 : SpecUS cs m d y) (h2 : SpecEU cs d2 m2 y2) : False := by
  obtain ⟨ms, ds, ys, rest, hcs1, ⟨hmd, hml, _⟩, _, _⟩ := h1
  obtain ⟨ds2, ms2, ys2, rest2, hcs2, ⟨hdd, hdl, _⟩, _, _⟩ := h2
  have heq := hcs1.symm.trans hcs2
  rcases hml with hl1 | hl1 <;> rcases hdl with hl2 | hl2
  · obtain ⟨p, hms⟩ := len_one ms hl1
    obtain ⟨q, hds⟩ := len_one ds2 hl2
    subst hms; subst hds
    simp only [List.cons_append, List.nil_append, List.cons.injEq] at heq
    exact absurd heq.2.1 (by decide)
  · obtain ⟨p, hms⟩ := len_one ms hl1
    obtain ⟨q1, q2, hds⟩ := len_two ds2 hl2
    subst hms; subst hds
    simp only [List.cons_append, List.nil_append, List.cons.injEq] at heq
    have hq : ('/' : Char) = q2 := heq.2.1
    have hdig : q2.isDigit = true := hdd q2 (by simp)
    rw [← hq] at hdig
    exact absurd hdig (by decide)
  · obtain ⟨p1, p2, hms⟩ := len_two ms hl1
    obtain ⟨q, hds⟩ := len_one ds2 hl2
    subst hms; subst hds
    simp only [List.cons_append, List.nil_append, List.cons.injEq] at heq
    have hp : p2 = '.' := heq.2.1
    have hdig : p2.isDigit = true := hmd p2 (by simp)
    rw [hp] at hdig
    exact absurd hdig (by decide)
  · obtain ⟨p1, p2, hms⟩ := len_two ms hl1
    obtain ⟨q1, q2, hds⟩ := len_two ds2 hl2
    subst hms; subst hds
    simp only [List.cons_append, List.nil_append, List.cons.injEq] at heq
    exact absurd heq.2.2.1 (by decide)

/-- Each shape forces a nonempty input. -/
theorem specISO_ne_nil (cs : Str) (y m d : Nat) (h : SpecISO cs y m d) :
    cs ≠ [] := by
  obtain ⟨ys, ms, ds, rest, hcs, ⟨_, hyl, _⟩, _, _, _⟩ := h
  obtain ⟨a, b, c, e, hys⟩ := len_four ys hyl
  subst hys
  rw [hcs]
  simp

/-- The US shape forces a nonempty input. -/
theorem specUS_ne_nil (cs : Str) (m d y : Nat) (h : SpecUS cs m d y) :
    cs ≠ [] := by
  obtain ⟨ms, ds, ys, rest, hcs, ⟨_, hml, _⟩, _, _⟩ := h
  rcases hml with hl | hl
  · obtain ⟨p, hms⟩ := len_one ms hl
    subst hms; rw [hcs]; simp
  · obtain ⟨p, q, hms⟩ := len_two ms hl
    subst hms; rw [hcs]; simp

/-- The European shape forces a nonempty input. -/
theorem specEU_ne_nil (cs : Str) (d m y : Nat) (h : SpecEU cs d m y) :
    cs ≠ [] := by
  obtain ⟨ds, ms, ys, rest, hcs, ⟨_, hdl, _⟩, _, _⟩ := h
  rcases hdl with hl | hl
  · obtain ⟨p, hds⟩ := len_one ds hl
    subst hds; rw [hcs]; simp
  · obtain ⟨p, q, hds⟩ := len_two ds hl
    subst hds; rw [hcs]; simp

/-- The bounds check decides the plausible-range predicate. -/
theorem okBounds_iff (y m d : Nat) : okBounds y m d = true ↔ InBounds y m d := by
  simp [okBounds, InBounds]

/-- The European branch of the parser succeeds exactly on a bounded
European shape. -/
theorem tryEU_iff (cs s : Str) :
    tryEU cs = some s ↔
      ∃ d m y, InBounds y m d ∧ SpecEU cs d m y ∧ s = fmtDate d m y := by
  constructor
  · intro h
    unfold tryEU at h
    rcases he : matchEU cs with _ | ⟨d, m, y⟩ <;> rw [he] at h <;> dsimp only at h
    · simp at h
    · by_cases hb : okBounds y m d = true
      · rw [if_pos hb] at h
        cases h
        exact ⟨d, m, y, (okBounds_iff _ _ _).mp hb,
          (matchEU_iff _ _ _ _).mp he, rfl⟩
      · rw [if_neg hb] at h
        simp at h
  · rintro ⟨d, m, y, hib, hspec, hs⟩
    subst hs
    unfold tryEU
    rw [(matchEU_iff _ _ _ _).mpr hspec]
    dsimp only
    rw [if_pos ((okBounds_iff _ _ _).mpr hib)]

/-- The US-then-European tail of the parser succeeds exactly on a bounded
US or European shape. -/
theorem tryUS_iff (cs s : Str) :
    tryUS cs = some s ↔
      ∃ d m y, InBounds y m d ∧ (SpecUS cs m d y ∨ SpecEU cs d m y) ∧
        s = fmtDate d m y := by
  constructor
  · intro h
    unfold tryUS at h
    rcases hu : matchUS cs with _ | ⟨m, d, y⟩ <;> rw [hu] at h <;> dsimp only at h
    · obtain ⟨d, m, y, hib, hspec, hs⟩ := (tryEU_iff _ _).mp h
      exact ⟨d, m, y, hib, Or.inr hspec, hs⟩
    · by_cases hb : okBounds y m d = true
      · rw [if_pos hb] at h
        cases h
        exact ⟨d, m, y, (okBounds_iff _ _ _).mp hb,
          Or.inl ((matchUS_iff _ _ _ _).mp hu), rfl⟩
      · rw [if_neg hb] at h
        obtain ⟨d2, m2, y2, hib, hspec, hs⟩ := (tryEU_iff _ _).mp h
        exact ⟨d2, m2, y2, hib, Or.inr hspec, hs⟩
  · rintro ⟨d, m, y, hib, hspec, hs⟩
    subst hs
    unfold tryUS
    rcases hspec with hus | heu
    · rw [(matchUS_iff _ _ _ _).mpr hus]
      dsimp only
      rw [if_pos ((okBounds_iff _ _ _).mpr hib)]
    · rcases hu : matchUS cs with _ | ⟨m2, d2, y2⟩
      · dsimp only
        exact (tryEU_iff _ _).mpr ⟨d, m, y, hib, heu, rfl⟩
      · exact absurd ((matchUS_iff _ _ _ _).mp hu)
          (fun h2 => not_us_eu _ _ _ _ _ _ _ h2 heu)

/-- C1: `parse_date_string` returns a zero-padded day.month.year string
exactly when the stripped input matches one of the specification's three
shapes within the plausible bounds, and returns `none` for every other
input; the spec's concrete normalization examples hold, including the
URL-path example. -/
theorem c1_parse_date_spec :
    (∀ raw s : Str, parse_date_string raw = some s ↔
      ∃ d m y, SpecDate (pyStrip raw) d m y ∧ s = fmtDate d m y) ∧
    parse_date_string "2023-03-15T10:00:00+00:00".data = some "15.03.2023".data ∧
    parse_date_string "03/15/2023".data = some "15.03.2023".data ∧
    parse_date_string "15.03.2023".data = some "15.03.2023".data ∧
    parse_date_string "2045-01-01".data = none ∧
    extract_date_from_url "https://x.com/2022/7/4/post".data =
      some "04.07.2022".data := by
  refine ⟨?_, by decide, by decide, by decide, by decide, by decide⟩
  intro raw s
  unfold parse_date_string
  rcases hst : pyStrip raw with _ | ⟨c, cs2⟩
  · dsimp only
    constructor
    · intro h
      simp at h
    · rintro ⟨d, m, y, ⟨hib, hsh⟩, _⟩
      exfalso
      rcases hsh with h | h | h
      · exact specISO_ne_nil _ _ _ _ h rfl
      · exact specUS_ne_nil _ _ _ _ h rfl
      · exact specEU_ne_nil _ _ _ _ h rfl
  · dsimp only
    constructor
    · intro h
      rcases hi : matchISO (c :: cs2) with _ | ⟨y, m, d⟩ <;> rw [hi] at h <;>
        dsimp only at h
      · obtain ⟨d, m, y, hib, hsp, hs⟩ := (tryUS_iff _ _).mp h
        refine ⟨d, m, y, ⟨hib, ?_⟩, hs⟩
        rcases hsp with h2 | h2
        · exact Or.inr (Or.inl h2)
        · exact Or.inr (Or.inr h2)
      · by_cases hb : okBounds y m d = true
        · rw [if_pos hb] at h
          cases h
          exact ⟨d, m, y, ⟨(okBounds_iff _ _ _).mp hb,
            Or.inl ((matchISO_iff _ _ _ _).mp hi)⟩, rfl⟩
        · rw [if_neg hb] at h
          obtain ⟨d2, m2, y2, hib, hsp, hs⟩ := (tryUS_iff _ _).mp h
          refine ⟨d2, m2, y2, ⟨hib, ?_⟩, hs⟩
          rcases hsp with h2 | h2
          · exact Or.inr (Or.inl h2)
          · exact Or.inr (Or.inr h2)
    · rintro ⟨d, m, y, ⟨hib, hsp⟩, hs⟩
      subst hs
      rcases hsp with hiso | hus | heu
      · rw [(matchISO_iff _ _ _ _).mpr hiso]
        dsimp only
        rw [if_pos ((okBounds_iff _ _ _).mpr hib)]
      · rcases hi : matchISO (c :: cs2) with _ | ⟨y2, m2, d2⟩
        · dsimp only
          exact (tryUS_iff _ _).mpr ⟨d, m, y, hib, Or.inl hus, rfl⟩
        · exact absurd ((matchISO_iff _ _ _ _).mp hi)
            (fun h2 => not_iso_us _ _ _ _ _ _ _ h2 hus)
      · rcases hi : matchISO (c :: cs2) with _ | ⟨y2, m2, d2⟩
        · dsimp only
          exact (tryUS_iff _ _).mpr ⟨d, m, y, hib, Or.inr heu, rfl⟩
        · exact absurd ((matchISO_iff _ _ _ _).mp hi)
            (fun h2 => not_iso_eu _ _ _ _ _ _ _ h2 heu)

/-- The HTML date extraction is the first-success waterfall over its five
stages in their fixed order. -/
theorem extract_html_firstSome (html url : Str) :
    extract_date_from_html html url =
      firstSome [strat1 html, strat2 html, strat3 html, strat4 html,
        extract_date_from_url url] := by
  rcases h1 : strat1 html with _ | d1 <;>
    rcases h2 : strat2 html with _ | d2 <;>
      rcases h3 : strat3 html with _ | d3 <;>
        rcases h4 : strat4 html with _ | d4 <;>
          rcases hu : extract_date_from_url url with _ | du <;>
            simp [extract_date_from_html, firstSome, h1, h2, h3, h4, hu]

/-- When the whole HTML waterfall fails, its last stage — the URL pattern —
failed too. -/
theorem extract_html_none_url (html url : Str)
    (h : extract_date_from_html html url = none) :
    extract_date_from_url url = none := by
  unfold extract_date_from_html at h
  rcases h1 : strat1 html with _ | d1 <;> rw [h1] at h <;> dsimp only at h
  · rcases h2 : strat2 html with _ | d2 <;> rw [h2] at h <;> dsimp only at h
    · rcases h3 : strat3 html with _ | d3 <;> rw [h3] at h <;> dsimp only at h
      · rcases h4 : strat4 html with _ | d4 <;> rw [h4] at h <;> dsimp only at h
        · exact h
        · simp at h
      · simp at h
    · simp at h
  · simp at h

/-- C4: the date derivation is total and follows the specified fallback
structure — with a fetched document the five stages are tried in fixed
order and the first success wins; with every stage failed, or no document,
the URL-pattern extraction is attempted on its own; and when that fails too
the result is the sentinel `01.01.1970`. -/
theorem c4_process_waterfall :
    (∀ html url : Str, extract_date_from_html html url =
      firstSome [strat1 html, strat2 html, strat3 html, strat4 html,
        extract_date_from_url url]) ∧
    (∀ (fetched : Option Str) (url : Str),
      process_single_url fetched url =
        ((match fetched with
          | some html =>
            firstSome [strat1 html, strat2 html, strat3 html, strat4 html,
              extract_date_from_url url]
          | none => none).orElse (fun _ => extract_date_from_url url)).getD
          defaultDate) := by
  refine ⟨extract_html_firstSome, ?_⟩
  intro fetched url
  rcases fetched with _ | html
  · dsimp only
    rcases hu : extract_date_from_url url with _ | dd <;>
      simp [process_single_url, hu, Option.orElse, Option.getD]
  · dsimp only
    rw [← extract_html_firstSome html url]
    rcases he : extract_date_from_html html url with _ | dd
    · have hnone := extract_html_none_url html url he
      simp [process_single_url, he, hnone, Option.orElse, Option.getD]
    · simp [process_single_url, he, Option.orElse, Option.getD]
